import Mathlib

/-!
# ProxyTrackAssociator: a shallow embedding of `ProxyTrackAssociator::execute`

The algorithm (`src/ProxyTrackAssociator.cpp`) builds Monte-Carlo truth links for
tracks that have none, by first relating them through shared LHCbIDs to tracks
that do have links.

Modelling conventions.

* Objects (`LHCb::Track*`, `const LHCb::MCParticle*`) are compared by address in
  the source, so they are natural numbers here.
* A `float` is a binary32 value, that is a rational that `fl32` leaves fixed, or NaN
  (`Option ℚ`, `none` being NaN). `fl32` rounds to the nearest binary32 value, ties
  to even, with gradual underflow; overflow to infinity (beyond `2^128`) is not
  modelled. Conversions to `float` and the quotient of line 50 are rounded by `fl32`.
* The transient event store is a record of partial functions.
* Dereferencing a null pointer or a past-the-end iterator is a `Fault`; the
  embedded `execute` returns `Except Fault Result`.
* Log messages and event-store accesses are recorded as a list of `Event`s, in
  program order; the statistics counters are not modelled.
-/

namespace ProxyTrackAssociator

/-! ## Data model -/

/-- Address of an `LHCb::Track`. -/
abbrev Track := ℕ

/-- Address of an `LHCb::MCParticle`. -/
abbrev MCParticle := ℕ

/-- Location key in the transient event store (`std::string`). -/
abbrev Location := String

/-- Link table of one location, seen through `Linker::first` / `next` / `weight`:
the linked particles of a track with their weights, in enumeration order. -/
abbrev Linker := Track → List (MCParticle × ℚ)

/-- Return code of a Gaudi algorithm. -/
inductive StatusCode where
  | SUCCESS
  | FAILURE
  deriving DecidableEq, Repr

/-- The three warnings the algorithm can issue. -/
inductive Message where
  /-- Text `No tracks at <location>!` (lines 14 and 33). -/
  | noTracksAt (location : Location)
  /-- Text `MC links for tracks at <location> not found!` (line 25). -/
  | linksNotFound (location : Location)
  /-- Text `Didn't find any tracks with MC links!` (line 39). -/
  | noLinkedTracks
  deriving DecidableEq, Repr

/-- Externally visible steps of one invocation. -/
inductive Event where
  /-- Call `getIfExists<LHCb::Tracks>(location)` (lines 12 and 31). -/
  | getIfExists (location : Location)
  /-- Construction `new Linker(evtSvc(), msgSvc(), location)` (line 23). -/
  | newLinker (location : Location)
  /-- Call `Warning(...)`. -/
  | warning (message : Message)
  /-- Construction of the output `LinkerWithKey` at `location` (line 63). -/
  | newLinkerWithKey (location : Location)
  deriving DecidableEq, Repr

/-- Undefined behaviour the source can run into. -/
inductive Fault where
  /-- Dereference `*linkedtracks[location]` of a null `LHCb::Tracks*` (lines 48, 72). -/
  | nullTracks (location : Location)
  /-- Dereference `*ilocation` with `ilocation == m_linkedtracks.end()` (line 77). -/
  | endOfLocations
  /-- Dereference `*linkers[location]` of a null `Linker*` (line 77). -/
  | nullLinker (location : Location)
  deriving DecidableEq, Repr

/-- The transient event store and the machine, as far as `execute` reads them. -/
structure EventStore where
  /-- Result of `getIfExists<LHCb::Tracks>(location)`; `none` is `nullptr`. -/
  tracks : Location → Option (List Track)
  /-- The link table found by `Linker(evtSvc(), msgSvc(), location)`; `none` when
  `notFound()` holds. -/
  links : Location → Option Linker
  /-- The `LHCbID`s of a track. -/
  lhcbIDs : Track → Finset ℕ
  /-- The `unsigned int` the machine yields when NaN is converted (the language
  leaves it undefined). -/
  nanAsUnsigned : ℕ

/-- The Gaudi properties declared in `ProxyTrackAssociator.h`. -/
structure Properties where
  /-- Property `InputTracks`. -/
  m_inputtracks : Location
  /-- Property `TrackMatchFrac` (default 0.7): the configured value; the
  `Gaudi::Property<float>` holds its binary32 rounding (see `threshold`). -/
  m_matchfrac : ℚ
  /-- Property `LinkedTracks` (default `Rec/Track/Best`). -/
  m_linkedtracks : List Location

/-- One link written to the output linker: `outputlinks.link(track, mcp, weight)`. -/
abbrev Link := Track × MCParticle × ℚ

/-- What one invocation of `execute` leaves behind. -/
structure Result where
  /-- The returned status code. -/
  status : StatusCode
  /-- The links written to the output linker, in emission order. -/
  outputlinks : List Link
  /-- The warnings, event-store reads and linker constructions, in program order. -/
  log : List Event
  deriving DecidableEq

deriving instance DecidableEq for Except

/-! ## `std::map` keyed by location -/

/-- Assignment `m[k] = v` on a `std::map<std::string, T>`. -/
def assign {α : Type} (m : List (Location × α)) (k : Location) (v : α) : List (Location × α) :=
  (k, v) :: m.filter (fun e => e.1 != k)

/-- Read `m[k]` on a `std::map<std::string, T*>`; `none` is the null pointer that
`operator[]` default-constructs for an absent key. -/
def at_ {α : Type} (m : List (Location × α)) (k : Location) : Option α :=
  m.lookup k

/-! ## Tracks and the match fraction -/

/-- Modelled from the spec: `LHCb::Track::nLHCbIDs()` (the LHCb event model is not
part of the repository), the cardinality of the identifier set. -/
def nLHCbIDs (store : EventStore) (track : Track) : ℕ :=
  (store.lhcbIDs track).card

/-- Modelled from the spec: `LHCb::Track::nCommonLhcbIDs(other)` (the LHCb event
model is not part of the repository), the number of shared identifiers. -/
def nCommonLhcbIDs (store : EventStore) (track other : Track) : ℕ :=
  (store.lhcbIDs track ∩ store.lhcbIDs other).card

/-- The power `2 ^ k` of natural numbers. -/
def pow2 : ℕ → ℕ
  | 0 => 1
  | k + 1 => 2 * pow2 k

/-- The power `2 ^ e` as a rational, for an integer exponent. -/
def twoPow (e : ℤ) : ℚ :=
  if 0 ≤ e then mkRat (pow2 e.toNat) 1 else mkRat 1 (pow2 (-e).toNat)

/-- The binary32 exponent of a positive rational `a`: the integer `e` with
`2 ^ e ≤ a < 2 ^ (e + 1)`, but at least `-126` (below `2 ^ (-126)` the values are
subnormal and share the exponent `-126`). -/
def binade (a : ℚ) : ℤ :=
  max (Int.log 2 a) (-126)

/-- Rounding of a rational to the nearest integer, ties to the even one. -/
def rne (y : ℚ) : ℤ :=
  if y - ⌊y⌋ < 1/2 then ⌊y⌋
  else if 1/2 < y - ⌊y⌋ then ⌊y⌋ + 1
  else if ⌊y⌋ % 2 = 0 then ⌊y⌋ else ⌊y⌋ + 1

/-- Rounding of a non-negative rational to binary32: the nearest multiple of the
unit in the last place `2 ^ (e - 23)` (24 significant bits), ties to even. -/
def roundAbs (a : ℚ) : ℚ :=
  (rne (a / twoPow (binade a - 23)) : ℚ) * twoPow (binade a - 23)

/-- Rounding of a rational to the nearest binary32 value (`float`), ties to even. -/
def fl32 (x : ℚ) : ℚ :=
  if x < 0 then - roundAbs (-x) else roundAbs x

/-- The value held by `Gaudi::Property<float> m_matchfrac`: the configured value
rounded to binary32. -/
def threshold (cfg : Properties) : ℚ :=
  fl32 cfg.m_matchfrac

/-- Line 50, for a track with identifiers: `float(nmatch)/inputtrack->nLHCbIDs()`,
both counts converted to `float` and the quotient rounded to `float`. -/
def floatScore (store : EventStore) (inputtrack linkedtrack : Track) : ℚ :=
  fl32 (fl32 (nCommonLhcbIDs store inputtrack linkedtrack : ℚ) /
    fl32 (nLHCbIDs store inputtrack : ℚ))

/-- Line 50: `float matchfrac = float(nmatch)/inputtrack->nLHCbIDs()`. With no
identifier at all the quotient is `0/0`, which is NaN. -/
def matchfrac (store : EventStore) (inputtrack linkedtrack : Track) : Option ℚ :=
  if nLHCbIDs store inputtrack = 0 then none
  else some (floatScore store inputtrack linkedtrack)

/-- Line 51: comparison `x < y` of two `float` values; false when `x` is NaN. The
source compares `matchfrac`, a binary32 value, with the value held by the property,
`threshold cfg`, also a binary32 value. -/
def floatLt : Option ℚ → ℚ → Bool
  | none, _ => false
  | some x, y => decide (x < y)

/-- Implicit conversion of a `float` to `unsigned int` (line 54, where `matchfrac` is
passed as the `unsigned int` weight of the table): truncation toward zero; the match
fraction is never negative. -/
def toUnsigned (store : EventStore) : Option ℚ → ℕ
  | none => store.nanAsUnsigned
  | some x => (Rat.floor x).toNat

/-! ## The relation table -/

/-- Line 44: `Relations::RelationWeighted<LHCb::Track, LHCb::Track, unsigned int>`;
rows are `(from, to, weight)` and the weight type is `unsigned int`. -/
abbrev RelationTable := List (Track × Track × ℕ)

/-- Modelled from the spec: `i_relate(from, to, weight)` of the relation table (the
Relations library is not part of the repository): inserts one relation, keeping
insertion order, duplicates permitted. -/
def i_relate (table : RelationTable) (from_ to_ : Track) (weight : ℕ) : RelationTable :=
  table ++ [(from_, to_, weight)]

/-- Modelled from the spec: `relations(from)` of the relation table (the Relations
library is not part of the repository): all relations of that source, in insertion
order. -/
def relations (table : RelationTable) (from_ : Track) : RelationTable :=
  table.filter (fun row => row.1 = from_)

/-! ## Retrieval of the reference tracks and their linkers (lines 18-41) -/

/-- The two maps filled by the loop of lines 22-37, and the events it produced. -/
structure Retrieved where
  /-- Local `std::map<std::string, const LHCb::Tracks*> linkedtracks`. -/
  linkedtracks : List (Location × List Track)
  /-- Local `std::map<std::string, Linker*> linkers`. -/
  linkers : List (Location × Linker)
  /-- Events so far. -/
  log : List Event

/-- Body of the loop of lines 22-37 for one `location`. -/
def retrieveLocation (store : EventStore) (acc : Retrieved) (location : Location) : Retrieved :=
  match store.links location with
  | none =>
    { acc with log := acc.log ++ [.newLinker location, .warning (.linksNotFound location)] }
  | some linker =>
    match store.tracks location with
    | none =>
      { linkedtracks := acc.linkedtracks
        linkers := assign acc.linkers location linker
        log := acc.log ++
          [.newLinker location, .getIfExists location, .warning (.noTracksAt location)] }
    | some theselinkedtracks =>
      { linkedtracks := assign acc.linkedtracks location theselinkedtracks
        linkers := assign acc.linkers location linker
        log := acc.log ++ [.newLinker location, .getIfExists location] }

/-- Lines 20-37: the loop over `m_linkedtracks`. -/
def retrieve (cfg : Properties) (store : EventStore) (log : List Event) : Retrieved :=
  cfg.m_linkedtracks.foldl (retrieveLocation store) ⟨[], [], log⟩

/-! ## Stage 1: the relation table (lines 43-60) -/

/-- Lines 49-55: body of the innermost loop, for one `linkedtrack`. -/
def matchLinkedTrack (cfg : Properties) (store : EventStore) (inputtrack : Track)
    (table : RelationTable) (linkedtrack : Track) : RelationTable :=
  if floatLt (matchfrac store inputtrack linkedtrack) (threshold cfg) then table
  else i_relate table inputtrack linkedtrack
    (toUnsigned store (matchfrac store inputtrack linkedtrack))

/-- Lines 47-57: the loop over `m_linkedtracks` for one `inputtrack`. -/
def matchLocations (cfg : Properties) (store : EventStore)
    (linkedtracks : List (Location × List Track)) (inputtrack : Track) :
    List Location → RelationTable → Except Fault RelationTable
  | [], table => .ok table
  | location :: rest, table =>
    match at_ linkedtracks location with
    | none => .error (.nullTracks location)
    | some these =>
      matchLocations cfg store linkedtracks inputtrack rest
        (these.foldl (matchLinkedTrack cfg store inputtrack) table)

/-- Lines 45-60: the loop over the input tracks. -/
def buildRelations (cfg : Properties) (store : EventStore)
    (linkedtracks : List (Location × List Track)) :
    List Track → RelationTable → Except Fault RelationTable
  | [], table => .ok table
  | inputtrack :: rest, table =>
    match matchLocations cfg store linkedtracks inputtrack cfg.m_linkedtracks table with
    | .error fault => .error fault
    | .ok table1 => buildRelations cfg store linkedtracks rest table1

/-! ## Stage 2: propagation of the truth links (lines 62-96) -/

/-- Local `std::map<const LHCb::MCParticle*, float> mcpweights`: entries in
ascending key order. -/
abbrev MCPWeights := List (MCParticle × ℚ)

/-- Assignment `mcpweights[mcp] = weight`. -/
def mcpAssign : MCPWeights → MCParticle → ℚ → MCPWeights
  | [], mcp, weight => [(mcp, weight)]
  | (k, v) :: rest, mcp, weight =>
    if mcp < k then (mcp, weight) :: (k, v) :: rest
    else if mcp = k then (mcp, weight) :: rest
    else (k, v) :: mcpAssign rest mcp weight

/-- Lookup `mcpweights.find(mcp)`; `none` is `mcpweights.end()`. -/
def mcpFind (mcpweights : MCPWeights) (mcp : MCParticle) : Option ℚ :=
  mcpweights.lookup mcp

/-- Function `std::max(a, b)`, which is `(a < b) ? b : a`. -/
def stdMax (a b : ℚ) : ℚ :=
  if a < b then b else a

/-- Lines 82-86: body of the `while` loop for one linked particle; `relweight` is
`trackrelation.weight()` and `entry` is `(mcp, linker.weight())`. -/
def addLink (relweight : ℕ) (mcpweights : MCPWeights) (entry : MCParticle × ℚ) : MCPWeights :=
  match mcpFind mcpweights entry.1 with
  | none => mcpAssign mcpweights entry.1 (entry.2 * (relweight : ℚ))
  | some old => mcpAssign mcpweights entry.1 (stdMax (entry.2 * (relweight : ℚ)) old)

/-- Lines 70-76: the scan of `m_linkedtracks` for the first location whose
collection contains `linktrack`; `none` is `m_linkedtracks.end()`. -/
def findLocation (linkedtracks : List (Location × List Track)) (linktrack : Track) :
    List Location → Except Fault (Option Location)
  | [] => .ok none
  | location :: rest =>
    match at_ linkedtracks location with
    | none => .error (.nullTracks location)
    | some these =>
      if linktrack ∈ these then .ok (some location)
      else findLocation linkedtracks linktrack rest

/-- Line 77: `Linker& linker = *linkers[*ilocation]`. -/
def resolveLinker (cfg : Properties) (linkedtracks : List (Location × List Track))
    (linkers : List (Location × Linker)) (linktrack : Track) : Except Fault Linker :=
  match findLocation linkedtracks linktrack cfg.m_linkedtracks with
  | .error fault => .error fault
  | .ok none => .error .endOfLocations
  | .ok (some location) =>
    match at_ linkers location with
    | none => .error (.nullLinker location)
    | some linker => .ok linker

/-- Lines 68-89: the loop over the relations of one input track. -/
def propagate (cfg : Properties) (linkedtracks : List (Location × List Track))
    (linkers : List (Location × Linker)) :
    RelationTable → MCPWeights → Except Fault MCPWeights
  | [], mcpweights => .ok mcpweights
  | trackrelation :: rest, mcpweights =>
    match resolveLinker cfg linkedtracks linkers trackrelation.2.1 with
    | .error fault => .error fault
    | .ok linker =>
      propagate cfg linkedtracks linkers rest
        ((linker trackrelation.2.1).foldl (addLink trackrelation.2.2) mcpweights)

/-- Lines 92-95: one `outputlinks.link(inputtrack, mcp, weight)` per map entry. -/
def emit (inputtrack : Track) (mcpweights : MCPWeights) : List Link :=
  mcpweights.map (fun mcpweight => (inputtrack, mcpweight.1, mcpweight.2))

/-- Lines 64-96: the loop over the input tracks. -/
def linkTracks (cfg : Properties) (linkedtracks : List (Location × List Track))
    (linkers : List (Location × Linker)) (table : RelationTable) :
    List Track → List Link → Except Fault (List Link)
  | [], outputlinks => .ok outputlinks
  | inputtrack :: rest, outputlinks =>
    match propagate cfg linkedtracks linkers (relations table inputtrack) [] with
    | .error fault => .error fault
    | .ok mcpweights =>
      linkTracks cfg linkedtracks linkers table rest (outputlinks ++ emit inputtrack mcpweights)

/-! ## The algorithm -/

/-- Function `ProxyTrackAssociator::execute`. -/
def execute (cfg : Properties) (store : EventStore) : Except Fault Result :=
  match store.tracks cfg.m_inputtracks with
  | none =>
    .ok ⟨.SUCCESS, [],
      [.getIfExists cfg.m_inputtracks, .warning (.noTracksAt cfg.m_inputtracks)]⟩
  | some inputtracks =>
    let found := retrieve cfg store [.getIfExists cfg.m_inputtracks]
    if found.linkedtracks.isEmpty || found.linkers.isEmpty then
      .ok ⟨.SUCCESS, [], found.log ++ [.warning .noLinkedTracks]⟩
    else
      match buildRelations cfg store found.linkedtracks inputtracks [] with
      | .error fault => .error fault
      | .ok tracktotrackrelations =>
        match linkTracks cfg found.linkedtracks found.linkers tracktotrackrelations
            inputtracks [] with
        | .error fault => .error fault
        | .ok outputlinks =>
          .ok ⟨.SUCCESS, outputlinks,
            found.log ++ [.newLinkerWithKey cfg.m_inputtracks]⟩

/-! ## Concrete scenarios -/

/-- Identifier sets of the scenario of section 8: track 1 (`U`) has ten identifiers,
track 11 (`R1`) shares eight of them, track 12 (`R2`) seven, track 13 six. -/
def scenarioIDs (track : Track) : Finset ℕ :=
  if track = 1 then Finset.range 10
  else if track = 11 then Finset.range 8
  else if track = 12 then Finset.range 7
  else if track = 13 then Finset.range 6
  else ∅

/-- Event store of the scenario of section 8: `U` at `In`, `R1` at `A` linked to
particle 100 with weight 0.5, `R2` at `B` linked to particle 100 with weight 0.9. -/
def scenarioStore : EventStore where
  tracks := fun location =>
    if location = "In" then some [1]
    else if location = "A" then some [11]
    else if location = "B" then some [12]
    else none
  links := fun location =>
    if location = "A" then some (fun track => if track = 11 then [(100, 1/2)] else [])
    else if location = "B" then some (fun track => if track = 12 then [(100, 9/10)] else [])
    else none
  lhcbIDs := scenarioIDs
  nanAsUnsigned := 0

/-- Properties of the scenario of section 8. -/
def scenarioCfg : Properties where
  m_inputtracks := "In"
  m_matchfrac := 7/10
  m_linkedtracks := ["A", "B"]

/-- Identifier sets in which reference track 11 shares all ten identifiers of
track 1, track 12 seven of them and track 13 six. -/
def exactIDs (track : Track) : Finset ℕ :=
  if track = 1 then Finset.range 10
  else if track = 11 then Finset.range 10
  else if track = 12 then Finset.range 7
  else if track = 13 then Finset.range 6
  else ∅

/-- Event store for the threshold boundary: the container at `A` holds track 12
(seven of ten identifiers shared) and track 13 (six of ten), both with truth links. -/
def gateStore : EventStore where
  tracks := fun location =>
    if location = "In" then some [1]
    else if location = "A" then some [12, 13]
    else none
  links := fun location =>
    if location = "A" then
      some (fun track => if track = 12 then [(100, 1)] else if track = 13 then [(200, 1)] else [])
    else none
  lhcbIDs := exactIDs
  nanAsUnsigned := 0

/-- Event store in which the only reference track shares six of ten identifiers. -/
def lowStore : EventStore where
  tracks := fun location =>
    if location = "In" then some [1]
    else if location = "A" then some [13]
    else none
  links := fun location =>
    if location = "A" then some (fun track => if track = 13 then [(200, 1)] else [])
    else none
  lhcbIDs := exactIDs
  nanAsUnsigned := 0

/-- Properties with the single reference location `A`. -/
def singleCfg : Properties where
  m_inputtracks := "In"
  m_matchfrac := 7/10
  m_linkedtracks := ["A"]

/-- Event store with one usable location `A` (track 11, a perfect match, linked to
particle 100 with weight 0.5), a location `B` with tracks but no link table, and a
location `C` with a link table but no tracks. -/
def mixedStore : EventStore where
  tracks := fun location =>
    if location = "In" then some [1]
    else if location = "A" then some [11]
    else if location = "B" then some [12]
    else none
  links := fun location =>
    if location = "A" then some (fun track => if track = 11 then [(100, 1/2)] else [])
    else if location = "C" then some (fun _ => [])
    else none
  lhcbIDs := exactIDs
  nanAsUnsigned := 0

/-- Properties naming the usable location `A` and the location `B` without links. -/
def mixedCfgB : Properties where
  m_inputtracks := "In"
  m_matchfrac := 7/10
  m_linkedtracks := ["A", "B"]

/-- Properties naming the usable location `A` and the location `C` without tracks. -/
def mixedCfgC : Properties where
  m_inputtracks := "In"
  m_matchfrac := 7/10
  m_linkedtracks := ["A", "C"]

/-- Event store whose reference location `A` has a link table and an empty track
container. -/
def emptyStore : EventStore where
  tracks := fun location =>
    if location = "In" then some [1]
    else if location = "A" then some []
    else none
  links := fun location => if location = "A" then some (fun _ => []) else none
  lhcbIDs := exactIDs
  nanAsUnsigned := 0

/-- Event store with input tracks and nothing at the reference location `A`. -/
def missingStore : EventStore where
  tracks := fun location => if location = "In" then some [1] else none
  links := fun _ => none
  lhcbIDs := exactIDs
  nanAsUnsigned := 0

/-- Properties whose input location holds nothing in `scenarioStore`. -/
def absentCfg : Properties where
  m_inputtracks := "Nowhere"
  m_matchfrac := 7/10
  m_linkedtracks := ["A", "B"]

/-- Event store in which reference track 11 is held by the containers of both `A`
and `B`; the link table of `A` links it to particle 100, that of `B` to particle 200. -/
def dualStore : EventStore where
  tracks := fun location =>
    if location = "In" then some [1]
    else if location = "A" then some [11]
    else if location = "B" then some [11]
    else none
  links := fun location =>
    if location = "A" then some (fun track => if track = 11 then [(100, 1/2)] else [])
    else if location = "B" then some (fun track => if track = 11 then [(200, 9/10)] else [])
    else none
  lhcbIDs := exactIDs
  nanAsUnsigned := 0

/-- Properties with the single reference location `A` and a threshold just above 0.7
that rounds to the same binary32 value as 0.7. -/
def nearCfg : Properties where
  m_inputtracks := "In"
  m_matchfrac := 7000000001/10000000000
  m_linkedtracks := ["A"]

/-- Properties naming the usable location `A` and a location `B` at which `lowStore`
holds nothing. -/
def lowCfgAB : Properties where
  m_inputtracks := "In"
  m_matchfrac := 7/10
  m_linkedtracks := ["A", "B"]

/-- The match score in the words of the specification: the number of shared
identifiers divided by the identifier count of the unlinked object. -/
def score (store : EventStore) (unlinked reference : Track) : ℚ :=
  ((store.lhcbIDs unlinked ∩ store.lhcbIDs reference).card : ℚ) /
    ((store.lhcbIDs unlinked).card : ℚ)

/-- Every configured location supplies both a link table and a track container. -/
def allUsable (cfg : Properties) (store : EventStore) : Prop :=
  ∀ location ∈ cfg.m_linkedtracks,
    (store.links location).isSome = true ∧ (store.tracks location).isSome = true

instance (cfg : Properties) (store : EventStore) : Decidable (allUsable cfg store) :=
  inferInstanceAs (Decidable (∀ location ∈ cfg.m_linkedtracks,
    (store.links location).isSome = true ∧ (store.tracks location).isSome = true))

/-- No configured location supplies both a link table and a track container. -/
def noneUsable (cfg : Properties) (store : EventStore) : Prop :=
  ∀ location ∈ cfg.m_linkedtracks,
    ¬ ((store.links location).isSome = true ∧ (store.tracks location).isSome = true)

instance (cfg : Properties) (store : EventStore) : Decidable (noneUsable cfg store) :=
  inferInstanceAs (Decidable (∀ location ∈ cfg.m_linkedtracks,
    ¬ ((store.links location).isSome = true ∧ (store.tracks location).isSome = true)))

/-- The reference tracks at a location (none when the container is absent). -/
def tracksAt (store : EventStore) (location : Location) : List Track :=
  (store.tracks location).getD []

/-- The rows that the innermost loop of stage 1 appends for one input track and
one container of reference tracks. -/
def matchedRows (cfg : Properties) (store : EventStore) (inputtrack : Track)
    (these : List Track) : RelationTable :=
  these.filterMap (fun linkedtrack =>
    if floatLt (matchfrac store inputtrack linkedtrack) (threshold cfg) then none
    else some (inputtrack, linkedtrack,
      toUnsigned store (matchfrac store inputtrack linkedtrack)))

/-- The maps `linkedtracks` and `linkers` as they are after line 37. -/
def found (cfg : Properties) (store : EventStore) : Retrieved :=
  retrieve cfg store [.getIfExists cfg.m_inputtracks]

/-- The rows that stage 1 appends for one input track when every configured
location is usable. -/
def rowsOf (cfg : Properties) (store : EventStore) (inputtrack : Track) : RelationTable :=
  cfg.m_linkedtracks.flatMap (fun location =>
    matchedRows cfg store inputtrack (tracksAt store location))

/-- The first configured location, in declaration order, whose container holds
the track. -/
def firstLocation (cfg : Properties) (store : EventStore) (track : Track) : Option Location :=
  cfg.m_linkedtracks.find? (fun location => decide (track ∈ tracksAt store location))

/-- The link table of the first configured location whose container holds the
track (the empty table when there is none). -/
def linkerOf (cfg : Properties) (store : EventStore) (track : Track) : Linker :=
  match firstLocation cfg store track with
  | none => fun _ => []
  | some location => (store.links location).getD (fun _ => [])

/-- The map `mcpweights` after the relations `rels` have been walked, each with the
link table `linkerOf` of its target. -/
def weightsOf (cfg : Properties) (store : EventStore) (rels : RelationTable) : MCPWeights :=
  rels.foldl (fun mcpweights row =>
    (linkerOf cfg store row.2.1 row.2.1).foldl (addLink row.2.2) mcpweights) []

/-- The particles stored in `mcpweights`, in iteration order. -/
def keys (mcpweights : MCPWeights) : List MCParticle :=
  mcpweights.map Prod.fst

/-- The links `execute` writes when every configured location is usable: for each
input track in turn, one link per entry of its map `mcpweights`. -/
def expectedLinks (cfg : Properties) (store : EventStore) (inputtracks : List Track) :
    List Link :=
  inputtracks.flatMap (fun inputtrack =>
    emit inputtrack
      (weightsOf cfg store (relations (inputtracks.flatMap (rowsOf cfg store)) inputtrack)))

/-- The combined weights of all derivation paths through the relations `rels`: one
pair `(particle, linker.weight() * trackrelation.weight())` per relation and per
entry that `linker` enumerates for the related track, in the order of the loops. -/
def products (linker : Track → Linker) (rels : RelationTable) : List (MCParticle × ℚ) :=
  rels.flatMap (fun row =>
    (linker row.2.1 row.2.1).map (fun entry => (entry.1, entry.2 * (row.2.2 : ℚ))))

/-- The map holds, for each particle, the maximum of the combined weights of the
paths that reach it: a particle is absent exactly when no path reaches it, and a
stored value is attained by some path and bounds all of them. -/
def holdsMaxima (mcpweights : MCPWeights) (paths : List (MCParticle × ℚ)) : Prop :=
  ∀ p, (mcpFind mcpweights p = none → ∀ x ∈ paths, x.1 ≠ p) ∧
    (∀ v, mcpFind mcpweights p = some v →
      (∃ x ∈ paths, x.1 = p ∧ x.2 = v) ∧ ∀ x ∈ paths, x.1 = p → x.2 ≤ v)

/-- Event store in which every track has the same ten identifiers, so that every
reference track is a perfect match; the container at `A` holds tracks 11, 14 and 15,
all linked to particle 100, with weights 0.3, 0.9 and 0.5, and track 14 also to
particle 200 with weight 0.2. -/
def maxStore : EventStore where
  tracks := fun location =>
    if location = "In" then some [1]
    else if location = "A" then some [11, 14, 15]
    else none
  links := fun location =>
    if location = "A" then
      some (fun track =>
        if track = 11 then [(100, 3/10)]
        else if track = 14 then [(100, 9/10), (200, 1/5)]
        else if track = 15 then [(100, 1/2)]
        else [])
    else none
  lhcbIDs := fun _ => Finset.range 10
  nanAsUnsigned := 0

/-- The link table of a location as a total function (no entries when the table is
absent). -/
def linksAt (store : EventStore) (location : Location) : Linker :=
  (store.links location).getD (fun _ => [])

/-- The event store `maxStore` with the entries of track 14 enumerated in the other
order. -/
def maxStoreSwapped : EventStore where
  tracks := fun location =>
    if location = "In" then some [1]
    else if location = "A" then some [11, 14, 15]
    else none
  links := fun location =>
    if location = "A" then
      some (fun track =>
        if track = 11 then [(100, 3/10)]
        else if track = 14 then [(200, 1/5), (100, 9/10)]
        else if track = 15 then [(100, 1/2)]
        else [])
    else none
  lhcbIDs := fun _ => Finset.range 10
  nanAsUnsigned := 0

/-- Every truth-link weight that a configured link table holds for a track of its
container lies between 0 and 1. -/
def weightsInUnit (cfg : Properties) (store : EventStore) : Prop :=
  ∀ location ∈ cfg.m_linkedtracks, ∀ r ∈ tracksAt store location,
    ∀ entry ∈ linksAt store location r, 0 ≤ entry.2 ∧ entry.2 ≤ 1

instance (cfg : Properties) (store : EventStore) : Decidable (weightsInUnit cfg store) :=
  inferInstanceAs (Decidable (∀ location ∈ cfg.m_linkedtracks, ∀ r ∈ tracksAt store location,
    ∀ entry ∈ linksAt store location r, 0 ≤ entry.2 ∧ entry.2 ≤ 1))

/-! ## The tagging variant of the specification -/

/-- Relation table of the tagging variant (sections 5 and 9 of the specification):
each relation also records the location of the container it was matched in. -/
abbrev TaggedTable := List ((Track × Track × ℕ) × Location)

/-- Tagging variant of `matchLinkedTrack`: the inserted relation is tagged with the
location whose container is being walked. -/
def matchLinkedTrackTagged (cfg : Properties) (store : EventStore) (location : Location)
    (inputtrack : Track) (table : TaggedTable) (linkedtrack : Track) : TaggedTable :=
  if floatLt (matchfrac store inputtrack linkedtrack) (threshold cfg) then table
  else table ++ [((inputtrack, linkedtrack,
    toUnsigned store (matchfrac store inputtrack linkedtrack)), location)]

/-- Tagging variant of `matchLocations`. -/
def matchLocationsTagged (cfg : Properties) (store : EventStore)
    (linkedtracks : List (Location × List Track)) (inputtrack : Track) :
    List Location → TaggedTable → Except Fault TaggedTable
  | [], table => .ok table
  | location :: rest, table =>
    match at_ linkedtracks location with
    | none => .error (.nullTracks location)
    | some these =>
      matchLocationsTagged cfg store linkedtracks inputtrack rest
        (these.foldl (matchLinkedTrackTagged cfg store location inputtrack) table)

/-- Tagging variant of `buildRelations`. -/
def buildRelationsTagged (cfg : Properties) (store : EventStore)
    (linkedtracks : List (Location × List Track)) :
    List Track → TaggedTable → Except Fault TaggedTable
  | [], table => .ok table
  | inputtrack :: rest, table =>
    match matchLocationsTagged cfg store linkedtracks inputtrack cfg.m_linkedtracks table with
    | .error fault => .error fault
    | .ok table1 => buildRelationsTagged cfg store linkedtracks rest table1

/-- Tagging variant of `relations`: all tagged relations of one source. -/
def relationsTagged (table : TaggedTable) (from_ : Track) : TaggedTable :=
  table.filter (fun row => row.1.1 = from_)

/-- Tagging variant of `propagate`: no scan; the link table is the one recorded for
the location that tags the relation. -/
def propagateTagged (linkers : List (Location × Linker)) :
    TaggedTable → MCPWeights → Except Fault MCPWeights
  | [], mcpweights => .ok mcpweights
  | trackrelation :: rest, mcpweights =>
    match at_ linkers trackrelation.2 with
    | none => .error (.nullLinker trackrelation.2)
    | some linker =>
      propagateTagged linkers rest
        ((linker trackrelation.1.2.1).foldl (addLink trackrelation.1.2.2) mcpweights)

/-- Tagging variant of `linkTracks`. -/
def linkTracksTagged (linkers : List (Location × Linker)) (table : TaggedTable) :
    List Track → List Link → Except Fault (List Link)
  | [], outputlinks => .ok outputlinks
  | inputtrack :: rest, outputlinks =>
    match propagateTagged linkers (relationsTagged table inputtrack) [] with
    | .error fault => .error fault
    | .ok mcpweights =>
      linkTracksTagged linkers table rest (outputlinks ++ emit inputtrack mcpweights)

/-- Tagging variant of `execute`: the same retrieval and exits, stage 1 tags each
relation with its originating location and stage 2 uses the tag instead of the scan. -/
def executeTagged (cfg : Properties) (store : EventStore) : Except Fault Result :=
  match store.tracks cfg.m_inputtracks with
  | none =>
    .ok ⟨.SUCCESS, [],
      [.getIfExists cfg.m_inputtracks, .warning (.noTracksAt cfg.m_inputtracks)]⟩
  | some inputtracks =>
    let found := retrieve cfg store [.getIfExists cfg.m_inputtracks]
    if found.linkedtracks.isEmpty || found.linkers.isEmpty then
      .ok ⟨.SUCCESS, [], found.log ++ [.warning .noLinkedTracks]⟩
    else
      match buildRelationsTagged cfg store found.linkedtracks inputtracks [] with
      | .error fault => .error fault
      | .ok tracktotrackrelations =>
        match linkTracksTagged found.linkers tracktotrackrelations inputtracks [] with
        | .error fault => .error fault
        | .ok outputlinks =>
          .ok ⟨.SUCCESS, outputlinks,
            found.log ++ [.newLinkerWithKey cfg.m_inputtracks]⟩

/-- The tagged rows that stage 1 of the tagging variant appends for one input track
when every configured location is usable. -/
def rowsOfTagged (cfg : Properties) (store : EventStore) (inputtrack : Track) : TaggedTable :=
  cfg.m_linkedtracks.flatMap (fun location =>
    (matchedRows cfg store inputtrack (tracksAt store location)).map
      (fun row => (row, location)))

/-- Every reference track lies in the container of one configured location only. -/
def uniqueProvenance (cfg : Properties) (store : EventStore) : Prop :=
  ∀ l1 ∈ cfg.m_linkedtracks, ∀ l2 ∈ cfg.m_linkedtracks,
    ∀ r ∈ tracksAt store l1, r ∈ tracksAt store l2 → l1 = l2

instance (cfg : Properties) (store : EventStore) : Decidable (uniqueProvenance cfg store) :=
  inferInstanceAs (Decidable (∀ l1 ∈ cfg.m_linkedtracks, ∀ l2 ∈ cfg.m_linkedtracks,
    ∀ r ∈ tracksAt store l1, r ∈ tracksAt store l2 → l1 = l2))

/-! ## Maps -/

theorem lookup_filter_ne {α : Type} (m : List (Location × α)) (k k1 : Location)
    (h : k1 ≠ k) : (m.filter (fun e => e.1 != k)).lookup k1 = m.lookup k1 := by
  induction m with
  | nil => rfl
  | cons e rest ih =>
    obtain ⟨a, b⟩ := e
    by_cases hak : a = k
    · subst hak
      have h1 : (k1 == a) = false := by simpa using h
      simp [List.filter_cons, List.lookup_cons, h1, ih]
    · have h2 : (a != k) = true := by simpa using hak
      simp only [List.filter_cons, h2, if_true, List.lookup_cons, ih]

theorem at_assign {α : Type} (m : List (Location × α)) (k k1 : Location) (v : α) :
    at_ (assign m k v) k1 = if k1 = k then some v else at_ m k1 := by
  unfold at_ assign
  by_cases h : k1 = k
  · subst h
    simp [List.lookup_cons]
  · have h1 : (k1 == k) = false := by simpa using h
    simp only [List.lookup_cons, h1, if_neg h]
    exact lookup_filter_ne m k k1 h

theorem assign_ne_nil {α : Type} (m : List (Location × α)) (k : Location) (v : α) :
    assign m k v ≠ [] := by
  simp [assign]

/-! ## Rounding to binary32 -/

theorem pow2_eq (k : ℕ) : pow2 k = 2 ^ k := by
  induction k with
  | zero => rfl
  | succ k ih => rw [pow2, ih, pow_succ, mul_comm]

theorem twoPow_eq (e : ℤ) : twoPow e = (2 : ℚ) ^ e := by
  unfold twoPow
  by_cases h : 0 ≤ e
  · rw [if_pos h, Rat.mkRat_eq_div, pow2_eq]
    obtain ⟨n, rfl⟩ := Int.eq_ofNat_of_zero_le h
    simp
  · rw [if_neg h, Rat.mkRat_eq_div, pow2_eq]
    have hneg : 0 ≤ -e := by omega
    obtain ⟨n, hn⟩ := Int.eq_ofNat_of_zero_le hneg
    have he : e = -(n : ℤ) := by omega
    subst he
    simp

theorem twoPow_pos (e : ℤ) : 0 < twoPow e := by
  rw [twoPow_eq]
  positivity

theorem twoPow_add (a b : ℤ) : twoPow (a + b) = twoPow a * twoPow b := by
  rw [twoPow_eq, twoPow_eq, twoPow_eq, zpow_add₀ (by norm_num : (2 : ℚ) ≠ 0)]

theorem twoPow_le (a b : ℤ) (h : a ≤ b) : twoPow a ≤ twoPow b := by
  rw [twoPow_eq, twoPow_eq]
  exact zpow_le_zpow_right₀ (by norm_num) h

theorem rne_floor_le (y : ℚ) : ⌊y⌋ ≤ rne y := by
  unfold rne
  split
  · exact le_refl _
  · split
    · omega
    · split <;> omega

theorem rne_le_floor_succ (y : ℚ) : rne y ≤ ⌊y⌋ + 1 := by
  unfold rne
  split
  · omega
  · split
    · omega
    · split <;> omega

theorem rne_intCast (n : ℤ) : rne (n : ℚ) = n := by
  unfold rne
  simp

theorem rne_mono (y z : ℚ) (h : y ≤ z) : rne y ≤ rne z := by
  have hfloor : ⌊y⌋ ≤ ⌊z⌋ := Int.floor_le_floor h
  rcases lt_or_eq_of_le hfloor with hlt | heq
  · calc rne y ≤ ⌊y⌋ + 1 := rne_le_floor_succ y
      _ ≤ ⌊z⌋ := hlt
      _ ≤ rne z := rne_floor_le z
  · have hfrac : y - ⌊y⌋ ≤ z - ⌊z⌋ := by
      rw [heq]
      linarith
    rw [heq] at hfrac
    unfold rne
    rw [heq]
    by_cases h1 : y - (⌊z⌋ : ℚ) < 1/2
    · rw [if_pos h1]
      split
      · exact le_refl _
      · split
        · omega
        · split <;> omega
    · rw [if_neg h1]
      have h2 : ¬ z - (⌊z⌋ : ℚ) < 1/2 := fun hz => h1 (lt_of_le_of_lt hfrac hz)
      rw [if_neg h2]
      by_cases h3 : 1/2 < y - (⌊z⌋ : ℚ)
      · have h4 : 1/2 < z - (⌊z⌋ : ℚ) := lt_of_lt_of_le h3 hfrac
        rw [if_pos h3, if_pos h4]
      · rw [if_neg h3]
        by_cases h4 : 1/2 < z - (⌊z⌋ : ℚ)
        · rw [if_pos h4]
          split <;> omega
        · rw [if_neg h4]

theorem rne_sub_le (y : ℚ) : |(rne y : ℚ) - y| ≤ 1/2 := by
  have hf1 : (⌊y⌋ : ℚ) ≤ y := Int.floor_le y
  have hf2 : y < (⌊y⌋ : ℚ) + 1 := Int.lt_floor_add_one y
  rw [abs_le]
  unfold rne
  by_cases h1 : y - (⌊y⌋ : ℚ) < 1/2
  · rw [if_pos h1]
    constructor <;> linarith
  · rw [if_neg h1]
    by_cases h3 : 1/2 < y - (⌊y⌋ : ℚ)
    · rw [if_pos h3]
      push_cast
      constructor <;> linarith
    · rw [if_neg h3]
      split
      · constructor <;> linarith
      · push_cast
        constructor <;> linarith

theorem binade_ge (a : ℚ) : -126 ≤ binade a := le_max_right _ _

theorem lt_twoPow_binade_succ (a : ℚ) : a < twoPow (binade a + 1) := by
  have h1 : a < (2 : ℚ) ^ (Int.log 2 a + 1) := Int.lt_zpow_succ_log_self (by norm_num) a
  rw [twoPow_eq]
  refine lt_of_lt_of_le h1 (zpow_le_zpow_right₀ (by norm_num) ?_)
  have : Int.log 2 a ≤ binade a := le_max_left _ _
  omega

theorem twoPow_binade_le (a : ℚ) (ha : 0 < a) (h : -126 < binade a) :
    twoPow (binade a) ≤ a := by
  have hlog : binade a = Int.log 2 a := by
    unfold binade at h ⊢
    rcases le_total (Int.log 2 a) (-126) with h1 | h1
    · rw [max_eq_right h1] at h
      exact absurd h (lt_irrefl _)
    · exact max_eq_left h1
  rw [hlog, twoPow_eq]
  exact Int.zpow_log_le_self (by norm_num) ha

theorem binade_mono (a b : ℚ) (ha : 0 < a) (h : a ≤ b) : binade a ≤ binade b := by
  unfold binade
  exact max_le_max (Int.log_mono_right ha h) (le_refl _)

theorem roundAbs_nonneg (a : ℚ) (ha : 0 ≤ a) : 0 ≤ roundAbs a := by
  unfold roundAbs
  apply mul_nonneg _ (le_of_lt (twoPow_pos _))
  have h0 : (0 : ℚ) ≤ a / twoPow (binade a - 23) := div_nonneg ha (le_of_lt (twoPow_pos _))
  have h1 : rne ((0 : ℤ) : ℚ) ≤ rne (a / twoPow (binade a - 23)) := by
    apply rne_mono
    simpa using h0
  rw [rne_intCast] at h1
  exact_mod_cast h1

theorem roundAbs_le (a : ℚ) : roundAbs a ≤ twoPow (binade a + 1) := by
  unfold roundAbs
  have hu := twoPow_pos (binade a - 23)
  have hlt := lt_twoPow_binade_succ a
  have hsplit : twoPow (binade a + 1) = twoPow 24 * twoPow (binade a - 23) := by
    rw [← twoPow_add]
    congr 1
    omega
  have h24 : twoPow 24 = ((16777216 : ℤ) : ℚ) := by
    rw [twoPow_eq]
    norm_num
  have hy : a / twoPow (binade a - 23) ≤ ((16777216 : ℤ) : ℚ) := by
    rw [div_le_iff₀ hu, ← h24, ← hsplit]
    exact le_of_lt hlt
  have hr := rne_mono _ _ hy
  rw [rne_intCast] at hr
  rw [hsplit, h24]
  apply mul_le_mul_of_nonneg_right _ (le_of_lt hu)
  exact_mod_cast hr

theorem le_roundAbs (a : ℚ) (ha : 0 < a) (h : -126 < binade a) :
    twoPow (binade a) ≤ roundAbs a := by
  unfold roundAbs
  have hu := twoPow_pos (binade a - 23)
  have hle := twoPow_binade_le a ha h
  have hsplit : twoPow (binade a) = twoPow 23 * twoPow (binade a - 23) := by
    rw [← twoPow_add]
    congr 1
    omega
  have h23 : twoPow 23 = ((8388608 : ℤ) : ℚ) := by
    rw [twoPow_eq]
    norm_num
  have hy : ((8388608 : ℤ) : ℚ) ≤ a / twoPow (binade a - 23) := by
    rw [le_div_iff₀ hu, ← h23, ← hsplit]
    exact hle
  have hr := rne_mono _ _ hy
  rw [rne_intCast] at hr
  rw [hsplit, h23]
  apply mul_le_mul_of_nonneg_right _ (le_of_lt hu)
  exact_mod_cast hr

theorem roundAbs_mono (a b : ℚ) (ha : 0 ≤ a) (h : a ≤ b) : roundAbs a ≤ roundAbs b := by
  rcases eq_or_lt_of_le ha with h0 | hpos
  · have hz : roundAbs a = 0 := by
      rw [← h0]
      unfold roundAbs
      simp [rne]
    rw [hz]
    exact roundAbs_nonneg b (le_trans ha h)
  · have hb : 0 < b := lt_of_lt_of_le hpos h
    rcases eq_or_lt_of_le (binade_mono a b hpos h) with heq | hlt
    · unfold roundAbs
      rw [heq]
      have hu := twoPow_pos (binade b - 23)
      apply mul_le_mul_of_nonneg_right _ (le_of_lt hu)
      have := rne_mono _ _ (div_le_div_of_nonneg_right h (le_of_lt hu))
      exact_mod_cast this
    · have h126 : -126 < binade b := lt_of_le_of_lt (binade_ge a) hlt
      calc roundAbs a ≤ twoPow (binade a + 1) := roundAbs_le a
        _ ≤ twoPow (binade b) := twoPow_le _ _ (by omega)
        _ ≤ roundAbs b := le_roundAbs b hb h126

theorem fl32_mono (x y : ℚ) (h : x ≤ y) : fl32 x ≤ fl32 y := by
  unfold fl32
  by_cases hx : x < 0
  · rw [if_pos hx]
    by_cases hy : y < 0
    · rw [if_pos hy]
      exact neg_le_neg (roundAbs_mono (-y) (-x) (by linarith) (by linarith))
    · rw [if_neg hy]
      have h1 := roundAbs_nonneg (-x) (by linarith)
      have h2 := roundAbs_nonneg y (not_lt.mp hy)
      linarith
  · rw [if_neg hx, if_neg (by linarith : ¬ y < 0)]
    exact roundAbs_mono x y (not_lt.mp hx) h

theorem fl32_zero : fl32 0 = 0 := by
  unfold fl32 roundAbs
  simp [rne]

theorem fl32_one : fl32 1 = 1 := by
  with_unfolding_all decide

theorem fl32_nonneg (x : ℚ) (h : 0 ≤ x) : 0 ≤ fl32 x := by
  have := fl32_mono 0 x h
  rwa [fl32_zero] at this

theorem fl32_le_one (x : ℚ) (h : x ≤ 1) : fl32 x ≤ 1 := by
  have := fl32_mono x 1 h
  rwa [fl32_one] at this

theorem roundAbs_of_int (a : ℚ) (m : ℤ) (h : a = (m : ℚ) * twoPow (binade a - 23)) :
    roundAbs a = a := by
  have hu := twoPow_pos (binade a - 23)
  have hy : a / twoPow (binade a - 23) = (m : ℚ) := by
    rw [div_eq_iff (ne_of_gt hu)]
    exact h
  unfold roundAbs
  rw [hy, rne_intCast]
  exact h.symm

theorem binade_natCast (n : ℕ) : binade (n : ℚ) = (Nat.log 2 n : ℤ) := by
  unfold binade
  rw [Int.log_natCast]
  apply max_eq_left
  omega

theorem fl32_natCast (n : ℕ) (h : n ≤ 2 ^ 24) : fl32 (n : ℚ) = n := by
  unfold fl32
  rw [if_neg (not_lt.mpr (Nat.cast_nonneg n))]
  rcases Nat.eq_zero_or_pos n with h0 | hpos
  · subst h0
    unfold roundAbs
    simp [rne]
  · have hlog : Nat.log 2 n ≤ 24 := by
      have := Nat.log_mono_right (b := 2) h
      rwa [Nat.log_pow (by norm_num)] at this
    have hle : 2 ^ Nat.log 2 n ≤ n := Nat.pow_log_le_self 2 (Nat.pos_iff_ne_zero.mp hpos)
    rcases Nat.lt_or_ge (Nat.log 2 n) 24 with hk | hk
    · apply roundAbs_of_int _ ((n * 2 ^ (23 - Nat.log 2 n) : ℕ) : ℤ)
      rw [binade_natCast, twoPow_eq]
      have hexp : ((Nat.log 2 n : ℤ) - 23) = -((23 - Nat.log 2 n : ℕ) : ℤ) := by omega
      rw [hexp, zpow_neg, zpow_natCast]
      push_cast
      field_simp
    · have hk24 : Nat.log 2 n = 24 := le_antisymm hlog hk
      have hn : n = 2 ^ 24 := by
        rw [hk24] at hle
        exact le_antisymm h hle
      apply roundAbs_of_int _ (8388608 : ℤ)
      rw [binade_natCast, hk24, twoPow_eq, hn]
      norm_num

theorem roundAbs_sub_le (a : ℚ) : |roundAbs a - a| ≤ twoPow (binade a - 23) / 2 := by
  have hu := twoPow_pos (binade a - 23)
  have h := rne_sub_le (a / twoPow (binade a - 23))
  unfold roundAbs
  have heq : (rne (a / twoPow (binade a - 23)) : ℚ) * twoPow (binade a - 23) - a =
      ((rne (a / twoPow (binade a - 23)) : ℚ) - a / twoPow (binade a - 23)) *
        twoPow (binade a - 23) := by
    field_simp
  rw [heq, abs_mul, abs_of_pos hu]
  calc |(rne (a / twoPow (binade a - 23)) : ℚ) - a / twoPow (binade a - 23)| *
        twoPow (binade a - 23)
      ≤ 1/2 * twoPow (binade a - 23) := mul_le_mul_of_nonneg_right h (le_of_lt hu)
    _ = twoPow (binade a - 23) / 2 := by ring

theorem binade_neg_of_lt_one (a : ℚ) (ha : 0 < a) (h1 : a < 1) : binade a ≤ -1 := by
  unfold binade
  apply max_le _ (by norm_num)
  have hlog : Int.log 2 a < 0 := by
    rw [← Int.lt_zpow_iff_log_lt (by norm_num) ha]
    simpa using h1
  omega

theorem fl32_sub_le (x : ℚ) (h0 : 0 ≤ x) (h1 : x ≤ 1) : |fl32 x - x| ≤ 1 / 33554432 := by
  rcases eq_or_lt_of_le h1 with heq | hlt
  · rw [heq, fl32_one]
    norm_num
  · rcases eq_or_lt_of_le h0 with hz | hpos
    · rw [← hz, fl32_zero]
      norm_num
    · unfold fl32
      rw [if_neg (not_lt.mpr h0)]
      refine le_trans (roundAbs_sub_le x) ?_
      have hb := binade_neg_of_lt_one x hpos hlt
      have hle := twoPow_le (binade x - 23) (-24) (by omega)
      have h24 : twoPow (-24) = 1 / 16777216 := by
        rw [twoPow_eq]
        norm_num
      rw [h24] at hle
      linarith

/-! ## The match fraction in binary32 -/

theorem score_le_one (store : EventStore) (u r : Track) (hids : 0 < nLHCbIDs store u) :
    score store u r ≤ 1 := by
  unfold score
  unfold nLHCbIDs at hids
  have hpos : (0 : ℚ) < ((store.lhcbIDs u).card : ℚ) := by exact_mod_cast hids
  rw [div_le_one hpos]
  exact_mod_cast Finset.card_le_card Finset.inter_subset_left

theorem floatScore_eq_fl32_score (store : EventStore) (u r : Track)
    (hsmall : nLHCbIDs store u ≤ 2 ^ 24) :
    floatScore store u r = fl32 (score store u r) := by
  have hcommon : nCommonLhcbIDs store u r ≤ nLHCbIDs store u :=
    Finset.card_le_card Finset.inter_subset_left
  unfold floatScore
  rw [fl32_natCast _ (le_trans hcommon hsmall), fl32_natCast _ hsmall]
  rfl

theorem floatScore_nonneg (store : EventStore) (u r : Track) : 0 ≤ floatScore store u r := by
  unfold floatScore
  apply fl32_nonneg
  exact div_nonneg (fl32_nonneg _ (Nat.cast_nonneg _)) (fl32_nonneg _ (Nat.cast_nonneg _))

theorem floatScore_le_one (store : EventStore) (u r : Track) (hids : 0 < nLHCbIDs store u) :
    floatScore store u r ≤ 1 := by
  have hcommon : nCommonLhcbIDs store u r ≤ nLHCbIDs store u :=
    Finset.card_le_card Finset.inter_subset_left
  have hle : fl32 (nCommonLhcbIDs store u r : ℚ) ≤ fl32 (nLHCbIDs store u : ℚ) :=
    fl32_mono _ _ (by exact_mod_cast hcommon)
  have hpos : 0 < fl32 (nLHCbIDs store u : ℚ) := by
    have h1 : (1 : ℚ) ≤ (nLHCbIDs store u : ℚ) := by exact_mod_cast hids
    have := fl32_mono _ _ h1
    rw [fl32_one] at this
    linarith
  unfold floatScore
  apply fl32_le_one
  rw [div_le_one hpos]
  exact hle

/-! ## Retrieval -/

theorem retrieveLocation_linkedtracks (store : EventStore) (acc : Retrieved)
    (l location : Location) :
    at_ (retrieveLocation store acc l).linkedtracks location =
      if location = l ∧ (store.links l).isSome = true ∧ (store.tracks l).isSome = true
      then store.tracks l else at_ acc.linkedtracks location := by
  unfold retrieveLocation
  cases hl : store.links l with
  | none => simp
  | some linker =>
    cases ht : store.tracks l with
    | none => simp
    | some these =>
      simp only [at_assign, Option.isSome_some, and_true]

theorem retrieveLocation_linkers (store : EventStore) (acc : Retrieved)
    (l location : Location) :
    at_ (retrieveLocation store acc l).linkers location =
      if location = l ∧ (store.links l).isSome = true
      then store.links l else at_ acc.linkers location := by
  unfold retrieveLocation
  cases hl : store.links l with
  | none => simp
  | some linker =>
    cases ht : store.tracks l with
    | none => simp only [at_assign, Option.isSome_some, and_true]
    | some these => simp only [at_assign, Option.isSome_some, and_true]

theorem foldl_retrieve_linkedtracks (store : EventStore) (locations : List Location)
    (acc : Retrieved) (location : Location) :
    at_ (locations.foldl (retrieveLocation store) acc).linkedtracks location =
      if location ∈ locations ∧ (store.links location).isSome = true ∧
          (store.tracks location).isSome = true
      then store.tracks location else at_ acc.linkedtracks location := by
  induction locations generalizing acc with
  | nil => simp
  | cons l rest ih =>
    rw [List.foldl_cons, ih, retrieveLocation_linkedtracks]
    by_cases h1 : location = l
    · subst h1
      by_cases h2 : (store.links location).isSome = true ∧ (store.tracks location).isSome = true
      · simp [h2]
      · simp [h2]
    · simp [h1]

theorem foldl_retrieve_linkers (store : EventStore) (locations : List Location)
    (acc : Retrieved) (location : Location) :
    at_ (locations.foldl (retrieveLocation store) acc).linkers location =
      if location ∈ locations ∧ (store.links location).isSome = true
      then store.links location else at_ acc.linkers location := by
  induction locations generalizing acc with
  | nil => simp
  | cons l rest ih =>
    rw [List.foldl_cons, ih, retrieveLocation_linkers]
    by_cases h1 : location = l
    · subst h1
      by_cases h2 : (store.links location).isSome = true
      · simp [h2]
      · simp [h2]
    · simp [h1]

theorem foldl_retrieve_linkedtracks_nil (store : EventStore) (locations : List Location)
    (acc : Retrieved) :
    (locations.foldl (retrieveLocation store) acc).linkedtracks = [] ↔
      acc.linkedtracks = [] ∧ ∀ location ∈ locations,
        ¬ ((store.links location).isSome = true ∧ (store.tracks location).isSome = true) := by
  induction locations generalizing acc with
  | nil => simp
  | cons l rest ih =>
    rw [List.foldl_cons, ih]
    unfold retrieveLocation
    cases hl : store.links l with
    | none => simp [hl]
    | some linker =>
      cases ht : store.tracks l with
      | none => simp [hl, ht]
      | some these => simp [hl, ht, assign_ne_nil]

theorem foldl_retrieve_linkers_nil (store : EventStore) (locations : List Location)
    (acc : Retrieved) :
    (locations.foldl (retrieveLocation store) acc).linkers = [] ↔
      acc.linkers = [] ∧ ∀ location ∈ locations, ¬ ((store.links location).isSome = true) := by
  induction locations generalizing acc with
  | nil => simp
  | cons l rest ih =>
    rw [List.foldl_cons, ih]
    unfold retrieveLocation
    cases hl : store.links l with
    | none => simp [hl]
    | some linker =>
      cases ht : store.tracks l with
      | none => simp [hl, assign_ne_nil]
      | some these => simp [hl, assign_ne_nil]

theorem found_linkedtracks (cfg : Properties) (store : EventStore) (location : Location) :
    at_ (found cfg store).linkedtracks location =
      if location ∈ cfg.m_linkedtracks ∧ (store.links location).isSome = true ∧
          (store.tracks location).isSome = true
      then store.tracks location else none := by
  unfold found retrieve
  rw [foldl_retrieve_linkedtracks]
  rfl

theorem found_linkers (cfg : Properties) (store : EventStore) (location : Location) :
    at_ (found cfg store).linkers location =
      if location ∈ cfg.m_linkedtracks ∧ (store.links location).isSome = true
      then store.links location else none := by
  unfold found retrieve
  rw [foldl_retrieve_linkers]
  rfl

theorem found_empty_iff (cfg : Properties) (store : EventStore) :
    ((found cfg store).linkedtracks.isEmpty || (found cfg store).linkers.isEmpty) = true ↔
      noneUsable cfg store := by
  unfold found retrieve noneUsable
  rw [Bool.or_eq_true, List.isEmpty_iff, List.isEmpty_iff, foldl_retrieve_linkedtracks_nil,
    foldl_retrieve_linkers_nil]
  constructor
  · rintro (h | h)
    · exact h.2
    · intro location hmem hboth
      exact h.2 location hmem hboth.1
  · intro h
    exact Or.inl ⟨rfl, h⟩

/-! ## Stage 1 -/

theorem foldl_matchLinkedTrack (cfg : Properties) (store : EventStore) (inputtrack : Track)
    (these : List Track) (table : RelationTable) :
    these.foldl (matchLinkedTrack cfg store inputtrack) table =
      table ++ matchedRows cfg store inputtrack these := by
  induction these generalizing table with
  | nil => simp [matchedRows]
  | cons t rest ih =>
    rw [List.foldl_cons, ih]
    unfold matchLinkedTrack matchedRows i_relate
    by_cases h : floatLt (matchfrac store inputtrack t) (threshold cfg) = true
    · simp [List.filterMap_cons, h]
    · simp [List.filterMap_cons, h]

theorem matchLocations_ok (cfg : Properties) (store : EventStore)
    (linkedtracks : List (Location × List Track)) (inputtrack : Track)
    (locations : List Location) (table : RelationTable)
    (h : ∀ location ∈ locations, (at_ linkedtracks location).isSome = true) :
    matchLocations cfg store linkedtracks inputtrack locations table =
      .ok (table ++ locations.flatMap (fun location =>
        matchedRows cfg store inputtrack ((at_ linkedtracks location).getD []))) := by
  induction locations generalizing table with
  | nil => simp [matchLocations]
  | cons l rest ih =>
    have hl := h l (List.mem_cons_self l rest)
    obtain ⟨these, hthese⟩ := Option.isSome_iff_exists.mp hl
    unfold matchLocations
    simp only [hthese]
    rw [ih _ (fun location hmem => h location (List.mem_cons_of_mem l hmem)),
      foldl_matchLinkedTrack]
    simp [List.flatMap_cons, hthese, List.append_assoc]

theorem found_linkedtracks_usable (cfg : Properties) (store : EventStore)
    (huse : allUsable cfg store) (location : Location) (hmem : location ∈ cfg.m_linkedtracks) :
    at_ (found cfg store).linkedtracks location = store.tracks location := by
  rw [found_linkedtracks, if_pos ⟨hmem, huse location hmem⟩]

theorem found_linkers_usable (cfg : Properties) (store : EventStore)
    (huse : allUsable cfg store) (location : Location) (hmem : location ∈ cfg.m_linkedtracks) :
    at_ (found cfg store).linkers location = store.links location := by
  rw [found_linkers, if_pos ⟨hmem, (huse location hmem).1⟩]

theorem matchLocations_found (cfg : Properties) (store : EventStore)
    (huse : allUsable cfg store) (inputtrack : Track) (table : RelationTable) :
    matchLocations cfg store (found cfg store).linkedtracks inputtrack cfg.m_linkedtracks table =
      .ok (table ++ rowsOf cfg store inputtrack) := by
  rw [matchLocations_ok]
  · unfold rowsOf tracksAt
    congr 2
    apply List.flatMap_congr
    intro location hmem
    rw [found_linkedtracks_usable cfg store huse location hmem]
  · intro location hmem
    rw [found_linkedtracks_usable cfg store huse location hmem]
    exact (huse location hmem).2

theorem buildRelations_found (cfg : Properties) (store : EventStore)
    (huse : allUsable cfg store) (inputtracks : List Track) (table : RelationTable) :
    buildRelations cfg store (found cfg store).linkedtracks inputtracks table =
      .ok (table ++ inputtracks.flatMap (rowsOf cfg store)) := by
  induction inputtracks generalizing table with
  | nil => simp [buildRelations]
  | cons u rest ih =>
    unfold buildRelations
    rw [matchLocations_found cfg store huse]
    simp only [ih, List.flatMap_cons, List.append_assoc]

theorem mem_matchedRows (cfg : Properties) (store : EventStore) (inputtrack : Track)
    (these : List Track) (row : Track × Track × ℕ) :
    row ∈ matchedRows cfg store inputtrack these ↔
      row.1 = inputtrack ∧ row.2.1 ∈ these ∧
      floatLt (matchfrac store inputtrack row.2.1) (threshold cfg) = false ∧
      row.2.2 = toUnsigned store (matchfrac store inputtrack row.2.1) := by
  unfold matchedRows
  rw [List.mem_filterMap]
  constructor
  · rintro ⟨t, ht, heq⟩
    by_cases hlt : floatLt (matchfrac store inputtrack t) (threshold cfg) = true
    · simp [hlt] at heq
    · simp only [hlt] at heq
      simp only [Bool.false_eq_true, if_false, Option.some.injEq] at heq
      subst heq
      exact ⟨rfl, ht, by simpa using hlt, rfl⟩
  · rintro ⟨h1, h2, h3, h4⟩
    refine ⟨row.2.1, h2, ?_⟩
    obtain ⟨a, b, c⟩ := row
    simp only at h1 h3 h4
    subst h1
    simp [h3, h4]

theorem mem_rowsOf (cfg : Properties) (store : EventStore) (inputtrack : Track)
    (row : Track × Track × ℕ) :
    row ∈ rowsOf cfg store inputtrack ↔
      row.1 = inputtrack ∧
      (∃ location ∈ cfg.m_linkedtracks, row.2.1 ∈ tracksAt store location) ∧
      floatLt (matchfrac store inputtrack row.2.1) (threshold cfg) = false ∧
      row.2.2 = toUnsigned store (matchfrac store inputtrack row.2.1) := by
  unfold rowsOf
  rw [List.mem_flatMap]
  constructor
  · rintro ⟨location, hmem, hrow⟩
    rw [mem_matchedRows] at hrow
    exact ⟨hrow.1, ⟨location, hmem, hrow.2.1⟩, hrow.2.2⟩
  · rintro ⟨h1, ⟨location, hmem, h2⟩, h3⟩
    exact ⟨location, hmem, (mem_matchedRows cfg store inputtrack _ row).mpr ⟨h1, h2, h3⟩⟩

theorem mem_relations_flatMap (cfg : Properties) (store : EventStore)
    (inputtracks : List Track) (u : Track) (row : Track × Track × ℕ) :
    row ∈ relations (inputtracks.flatMap (rowsOf cfg store)) u ↔
      u ∈ inputtracks ∧ row ∈ rowsOf cfg store u := by
  unfold relations
  rw [List.mem_filter, List.mem_flatMap]
  constructor
  · rintro ⟨⟨v, hv, hrow⟩, hu⟩
    have h1 := ((mem_rowsOf cfg store v row).mp hrow).1
    have h2 : row.1 = u := by simpa using hu
    have h3 : v = u := h1.symm.trans h2
    subst h3
    exact ⟨hv, hrow⟩
  · rintro ⟨hu, hrow⟩
    refine ⟨⟨u, hu, hrow⟩, ?_⟩
    simpa using ((mem_rowsOf cfg store u row).mp hrow).1

/-! ## Stage 2: provenance -/

theorem findLocation_found (cfg : Properties) (store : EventStore)
    (huse : allUsable cfg store) (linktrack : Track) (locations : List Location)
    (hsub : ∀ location ∈ locations, location ∈ cfg.m_linkedtracks) :
    findLocation (found cfg store).linkedtracks linktrack locations =
      .ok (locations.find? (fun location => decide (linktrack ∈ tracksAt store location))) := by
  induction locations with
  | nil => simp [findLocation]
  | cons l rest ih =>
    have hl := hsub l (List.mem_cons_self l rest)
    have hsome := (huse l hl).2
    obtain ⟨these, hthese⟩ := Option.isSome_iff_exists.mp hsome
    unfold findLocation
    rw [found_linkedtracks_usable cfg store huse l hl]
    simp only [hthese]
    by_cases hmem : linktrack ∈ these
    · simp [hmem, List.find?_cons, tracksAt, hthese]
    · rw [if_neg hmem, ih (fun location h => hsub location (List.mem_cons_of_mem l h))]
      simp [List.find?_cons, tracksAt, hthese, hmem]

theorem firstLocation_isSome (cfg : Properties) (store : EventStore) (linktrack : Track)
    (h : ∃ location ∈ cfg.m_linkedtracks, linktrack ∈ tracksAt store location) :
    ∃ location, firstLocation cfg store linktrack = some location := by
  unfold firstLocation
  cases hfind : cfg.m_linkedtracks.find?
      (fun location => decide (linktrack ∈ tracksAt store location)) with
  | some location => exact ⟨location, rfl⟩
  | none =>
    obtain ⟨location, hmem, hin⟩ := h
    have := List.find?_eq_none.mp hfind location hmem
    simp [hin] at this

theorem firstLocation_mem (cfg : Properties) (store : EventStore) (linktrack : Track)
    (location : Location) (h : firstLocation cfg store linktrack = some location) :
    location ∈ cfg.m_linkedtracks ∧ linktrack ∈ tracksAt store location := by
  unfold firstLocation at h
  refine ⟨List.mem_of_find?_eq_some h, ?_⟩
  simpa using List.find?_some h

theorem resolveLinker_found (cfg : Properties) (store : EventStore)
    (huse : allUsable cfg store) (linktrack : Track)
    (h : ∃ location ∈ cfg.m_linkedtracks, linktrack ∈ tracksAt store location) :
    resolveLinker cfg (found cfg store).linkedtracks (found cfg store).linkers linktrack =
      .ok (linkerOf cfg store linktrack) := by
  obtain ⟨location, hfirst⟩ := firstLocation_isSome cfg store linktrack h
  have hmem := (firstLocation_mem cfg store linktrack location hfirst).1
  obtain ⟨linker, hlinker⟩ := Option.isSome_iff_exists.mp (huse location hmem).1
  unfold resolveLinker
  rw [findLocation_found cfg store huse linktrack cfg.m_linkedtracks (fun _ h => h)]
  have hfirst2 := hfirst
  unfold firstLocation at hfirst2
  simp only [hfirst2]
  rw [found_linkers_usable cfg store huse location hmem]
  simp only [hlinker]
  simp [linkerOf, hfirst, hlinker]

theorem propagate_found (cfg : Properties) (store : EventStore)
    (huse : allUsable cfg store) (rels : RelationTable) (mcpweights : MCPWeights)
    (h : ∀ row ∈ rels, ∃ location ∈ cfg.m_linkedtracks, row.2.1 ∈ tracksAt store location) :
    propagate cfg (found cfg store).linkedtracks (found cfg store).linkers rels mcpweights =
      .ok (rels.foldl (fun mcpweights row =>
        (linkerOf cfg store row.2.1 row.2.1).foldl (addLink row.2.2) mcpweights) mcpweights) := by
  induction rels generalizing mcpweights with
  | nil => simp [propagate]
  | cons row rest ih =>
    unfold propagate
    rw [resolveLinker_found cfg store huse row.2.1 (h row (List.mem_cons_self row rest))]
    simp only [List.foldl_cons]
    exact ih _ (fun r hr => h r (List.mem_cons_of_mem row hr))

theorem linkTracks_found (cfg : Properties) (store : EventStore)
    (huse : allUsable cfg store) (all inputtracks : List Track) (outputlinks : List Link) :
    linkTracks cfg (found cfg store).linkedtracks (found cfg store).linkers
        (all.flatMap (rowsOf cfg store)) inputtracks outputlinks =
      .ok (outputlinks ++ inputtracks.flatMap (fun inputtrack =>
        emit inputtrack
          (weightsOf cfg store (relations (all.flatMap (rowsOf cfg store)) inputtrack)))) := by
  induction inputtracks generalizing outputlinks with
  | nil => simp [linkTracks]
  | cons u rest ih =>
    unfold linkTracks
    rw [propagate_found cfg store huse]
    · simp only [ih, List.flatMap_cons, List.append_assoc, weightsOf]
    · intro row hrow
      have h1 := ((mem_relations_flatMap cfg store all u row).mp hrow).2
      exact ((mem_rowsOf cfg store u row).mp h1).2.1

/-! ## The two ways through `execute` -/

theorem execute_noneUsable (cfg : Properties) (store : EventStore) (inputtracks : List Track)
    (hin : store.tracks cfg.m_inputtracks = some inputtracks)
    (hnone : noneUsable cfg store) :
    execute cfg store =
      .ok ⟨.SUCCESS, [], (found cfg store).log ++ [.warning .noLinkedTracks]⟩ := by
  have h := (found_empty_iff cfg store).mpr hnone
  unfold found at h
  unfold execute
  simp only [hin]
  rw [if_pos h]
  rfl

theorem execute_usable (cfg : Properties) (store : EventStore) (inputtracks : List Track)
    (hin : store.tracks cfg.m_inputtracks = some inputtracks)
    (huse : allUsable cfg store) (hne : cfg.m_linkedtracks ≠ []) :
    execute cfg store =
      .ok ⟨.SUCCESS, expectedLinks cfg store inputtracks,
        (found cfg store).log ++ [.newLinkerWithKey cfg.m_inputtracks]⟩ := by
  have hnot : ¬ (((found cfg store).linkedtracks.isEmpty ||
      (found cfg store).linkers.isEmpty) = true) := by
    rw [found_empty_iff]
    intro hnone
    obtain ⟨l, rest, hl⟩ := List.exists_cons_of_ne_nil hne
    have hmem : l ∈ cfg.m_linkedtracks := by rw [hl]; exact List.mem_cons_self l rest
    exact hnone l hmem (huse l hmem)
  have hbuild := buildRelations_found cfg store huse inputtracks []
  have hlink := linkTracks_found cfg store huse inputtracks inputtracks []
  unfold found at hnot hbuild hlink
  unfold execute
  simp only [hin]
  rw [if_neg hnot, hbuild]
  simp only [List.nil_append]
  rw [hlink]
  rfl

/-! ## The map `mcpweights` -/

theorem mem_keys_mcpAssign (mcpweights : MCPWeights) (mcp : MCParticle) (weight : ℚ)
    (p : MCParticle) :
    p ∈ keys (mcpAssign mcpweights mcp weight) ↔ p = mcp ∨ p ∈ keys mcpweights := by
  induction mcpweights with
  | nil => simp [mcpAssign, keys]
  | cons e rest ih =>
    obtain ⟨k, v⟩ := e
    unfold mcpAssign
    by_cases h1 : mcp < k
    · simp [h1, keys]
    · by_cases h2 : mcp = k
      · subst h2
        simp [keys]
      · simp only [if_neg h1, if_neg h2]
        have ih1 : p ∈ List.map Prod.fst (mcpAssign rest mcp weight) ↔
            p = mcp ∨ p ∈ List.map Prod.fst rest := ih
        simp only [keys, List.map_cons, List.mem_cons, ih1]
        tauto

theorem sorted_mcpAssign (mcpweights : MCPWeights) (mcp : MCParticle) (weight : ℚ)
    (h : (keys mcpweights).Pairwise (fun a b => a < b)) :
    (keys (mcpAssign mcpweights mcp weight)).Pairwise (fun a b => a < b) := by
  induction mcpweights with
  | nil => simp [mcpAssign, keys]
  | cons e rest ih =>
    obtain ⟨k, v⟩ := e
    have hk : ∀ b ∈ keys rest, k < b := (List.pairwise_cons.mp h).1
    have hrest : (keys rest).Pairwise (fun a b => a < b) := (List.pairwise_cons.mp h).2
    unfold mcpAssign
    by_cases h1 : mcp < k
    · rw [if_pos h1]
      change ((mcp :: k :: keys rest)).Pairwise (fun a b => a < b)
      refine List.pairwise_cons.mpr ⟨?_, h⟩
      intro b hb
      rcases List.mem_cons.mp hb with hb | hb
      · rw [hb]; exact h1
      · exact lt_trans h1 (hk b hb)
    · by_cases h2 : mcp = k
      · rw [if_neg h1, if_pos h2]
        change ((mcp :: keys rest)).Pairwise (fun a b => a < b)
        rw [h2]
        exact h
      · rw [if_neg h1, if_neg h2]
        change ((k :: keys (mcpAssign rest mcp weight))).Pairwise (fun a b => a < b)
        refine List.pairwise_cons.mpr ⟨?_, ih hrest⟩
        intro b hb
        rcases (mem_keys_mcpAssign rest mcp weight b).mp hb with hb | hb
        · rw [hb]
          exact lt_of_le_of_ne (not_lt.mp h1) (fun hkm => h2 hkm.symm)
        · exact hk b hb

theorem mem_keys_addLink (relweight : ℕ) (mcpweights : MCPWeights) (entry : MCParticle × ℚ)
    (p : MCParticle) :
    p ∈ keys (addLink relweight mcpweights entry) ↔ p = entry.1 ∨ p ∈ keys mcpweights := by
  unfold addLink
  cases mcpFind mcpweights entry.1 with
  | none => exact mem_keys_mcpAssign _ _ _ _
  | some old => exact mem_keys_mcpAssign _ _ _ _

theorem sorted_addLink (relweight : ℕ) (mcpweights : MCPWeights) (entry : MCParticle × ℚ)
    (h : (keys mcpweights).Pairwise (fun a b => a < b)) :
    (keys (addLink relweight mcpweights entry)).Pairwise (fun a b => a < b) := by
  unfold addLink
  cases mcpFind mcpweights entry.1 with
  | none => exact sorted_mcpAssign _ _ _ h
  | some old => exact sorted_mcpAssign _ _ _ h

theorem mem_keys_foldl_addLink (relweight : ℕ) (entries : List (MCParticle × ℚ))
    (mcpweights : MCPWeights) (p : MCParticle) :
    p ∈ keys (entries.foldl (addLink relweight) mcpweights) ↔
      p ∈ keys mcpweights ∨ ∃ entry ∈ entries, entry.1 = p := by
  induction entries generalizing mcpweights with
  | nil => simp
  | cons e rest ih =>
    rw [List.foldl_cons, ih, mem_keys_addLink]
    constructor
    · rintro ((h | h) | ⟨entry, hmem, h⟩)
      · exact Or.inr ⟨e, List.mem_cons_self e rest, h.symm⟩
      · exact Or.inl h
      · exact Or.inr ⟨entry, List.mem_cons_of_mem e hmem, h⟩
    · rintro (h | ⟨entry, hmem, h⟩)
      · exact Or.inl (Or.inr h)
      · rcases List.mem_cons.mp hmem with hmem | hmem
        · subst hmem
          exact Or.inl (Or.inl h.symm)
        · exact Or.inr ⟨entry, hmem, h⟩

theorem sorted_foldl_addLink (relweight : ℕ) (entries : List (MCParticle × ℚ))
    (mcpweights : MCPWeights) (h : (keys mcpweights).Pairwise (fun a b => a < b)) :
    (keys (entries.foldl (addLink relweight) mcpweights)).Pairwise (fun a b => a < b) := by
  induction entries generalizing mcpweights with
  | nil => exact h
  | cons e rest ih =>
    rw [List.foldl_cons]
    exact ih _ (sorted_addLink relweight mcpweights e h)

theorem mem_keys_foldl_rows (linker : Track → Linker) (rels : RelationTable)
    (mcpweights : MCPWeights) (p : MCParticle) :
    p ∈ keys (rels.foldl (fun mcpweights row =>
        (linker row.2.1 row.2.1).foldl (addLink row.2.2) mcpweights) mcpweights) ↔
      p ∈ keys mcpweights ∨ ∃ row ∈ rels, ∃ entry ∈ linker row.2.1 row.2.1, entry.1 = p := by
  induction rels generalizing mcpweights with
  | nil => simp
  | cons r rest ih =>
    rw [List.foldl_cons, ih, mem_keys_foldl_addLink]
    constructor
    · rintro ((h | h) | ⟨row, hmem, h⟩)
      · exact Or.inl h
      · exact Or.inr ⟨r, List.mem_cons_self r rest, h⟩
      · exact Or.inr ⟨row, List.mem_cons_of_mem r hmem, h⟩
    · rintro (h | ⟨row, hmem, h⟩)
      · exact Or.inl (Or.inl h)
      · rcases List.mem_cons.mp hmem with hmem | hmem
        · subst hmem
          exact Or.inl (Or.inr h)
        · exact Or.inr ⟨row, hmem, h⟩

theorem sorted_foldl_rows (linker : Track → Linker) (rels : RelationTable)
    (mcpweights : MCPWeights) (h : (keys mcpweights).Pairwise (fun a b => a < b)) :
    (keys (rels.foldl (fun mcpweights row =>
        (linker row.2.1 row.2.1).foldl (addLink row.2.2) mcpweights) mcpweights)).Pairwise
      (fun a b => a < b) := by
  induction rels generalizing mcpweights with
  | nil => exact h
  | cons r rest ih =>
    rw [List.foldl_cons]
    exact ih _ (sorted_foldl_addLink _ _ _ h)

theorem mem_keys_weightsOf (cfg : Properties) (store : EventStore) (rels : RelationTable)
    (p : MCParticle) :
    p ∈ keys (weightsOf cfg store rels) ↔
      ∃ row ∈ rels, ∃ entry ∈ linkerOf cfg store row.2.1 row.2.1, entry.1 = p := by
  unfold weightsOf
  rw [mem_keys_foldl_rows (linkerOf cfg store)]
  simp [keys]

theorem nodup_keys_weightsOf (cfg : Properties) (store : EventStore) (rels : RelationTable) :
    (keys (weightsOf cfg store rels)).Nodup := by
  have h : (keys (weightsOf cfg store rels)).Pairwise (fun a b => a < b) := by
    unfold weightsOf
    exact sorted_foldl_rows (linkerOf cfg store) rels [] (by simp [keys])
  exact h.imp (fun hab => ne_of_lt hab)

/-! ## Counting the emitted links -/

theorem countP_emit (v u : Track) (p : MCParticle) (mcpweights : MCPWeights) :
    List.countP (fun link : Link => decide (link.1 = u ∧ link.2.1 = p)) (emit v mcpweights) =
      if v = u then (keys mcpweights).count p else 0 := by
  induction mcpweights with
  | nil => simp [emit, keys]
  | cons e rest ih =>
    unfold emit keys at *
    rw [List.map_cons, List.map_cons, List.countP_cons, ih]
    by_cases hv : v = u
    · by_cases hp : e.1 = p
      · simp [hv, hp]
      · simp [hv, hp, List.count_cons]
    · simp [hv]

theorem countP_flatMap_emit (weights : Track → MCPWeights) (inputtracks : List Track)
    (u : Track) (p : MCParticle) (hnodup : inputtracks.Nodup) :
    List.countP (fun link : Link => decide (link.1 = u ∧ link.2.1 = p))
        (inputtracks.flatMap (fun v => emit v (weights v))) =
      if u ∈ inputtracks then (keys (weights u)).count p else 0 := by
  induction inputtracks with
  | nil => simp
  | cons v rest ih =>
    have hv : v ∉ rest := (List.nodup_cons.mp hnodup).1
    rw [List.flatMap_cons, List.countP_append, ih (List.nodup_cons.mp hnodup).2, countP_emit]
    by_cases h1 : v = u
    · subst h1
      simp [hv]
    · have h2 : ¬ u = v := fun h => h1 h.symm
      simp [h1, h2]

theorem mem_expectedLinks (cfg : Properties) (store : EventStore) (inputtracks : List Track)
    (link : Link) :
    link ∈ expectedLinks cfg store inputtracks ↔
      link.1 ∈ inputtracks ∧
      (link.2.1, link.2.2) ∈
        weightsOf cfg store (relations (inputtracks.flatMap (rowsOf cfg store)) link.1) := by
  unfold expectedLinks emit
  rw [List.mem_flatMap]
  constructor
  · rintro ⟨v, hv, hlink⟩
    obtain ⟨e, he, heq⟩ := List.mem_map.mp hlink
    subst heq
    exact ⟨hv, he⟩
  · rintro ⟨hv, hlink⟩
    exact ⟨link.1, hv, List.mem_map.mpr ⟨(link.2.1, link.2.2), hlink, rfl⟩⟩

theorem expectedLinks_no_locations (cfg : Properties) (store : EventStore)
    (inputtracks : List Track) (hnil : cfg.m_linkedtracks = []) :
    expectedLinks cfg store inputtracks = [] := by
  have hrows : ∀ u, rowsOf cfg store u = [] := by
    intro u
    simp [rowsOf, hnil]
  apply List.eq_nil_iff_forall_not_mem.mpr
  intro link hlink
  have h := ((mem_expectedLinks cfg store inputtracks link).mp hlink).2
  have hfun : rowsOf cfg store = fun _ => [] := funext hrows
  have hflat : inputtracks.flatMap (rowsOf cfg store) = [] := by
    rw [hfun]
    induction inputtracks with
    | nil => rfl
    | cons u rest ih => simp [List.flatMap_cons]
  rw [hflat] at h
  simp [relations, weightsOf] at h

theorem execute_usable_links (cfg : Properties) (store : EventStore)
    (inputtracks : List Track) (hin : store.tracks cfg.m_inputtracks = some inputtracks)
    (huse : allUsable cfg store) :
    ∃ log, execute cfg store = .ok ⟨.SUCCESS, expectedLinks cfg store inputtracks, log⟩ := by
  by_cases hnil : cfg.m_linkedtracks = []
  · refine ⟨(found cfg store).log ++ [.warning .noLinkedTracks], ?_⟩
    rw [expectedLinks_no_locations cfg store inputtracks hnil]
    apply execute_noneUsable cfg store inputtracks hin
    intro location hmem
    rw [hnil] at hmem
    cases hmem
  · exact ⟨_, execute_usable cfg store inputtracks hin huse hnil⟩


/-! ## The claims -/

/-- C1, evaluated at the scenario of section 8 of the specification: with threshold
0.7, `U` sharing 8 of its 10 identifiers with `R1` (linked to `P` with weight 0.5) and
7 with `R2` (linked to `P` with weight 0.9), `execute` writes the single link
`(U, P, 0)`, because the match fractions 0.8 and 0.7 are stored in a relation table
whose weight type is `unsigned int`; the maximum of score times link weight is 0.63. -/
theorem scenario_weight_truncated :
    execute scenarioCfg scenarioStore =
      .ok ⟨.SUCCESS, [(1, 100, 0)],
        [.getIfExists "In", .newLinker "A", .getIfExists "A", .newLinker "B",
          .getIfExists "B", .newLinkerWithKey "In"]⟩ ∧
    score scenarioStore 1 11 = 8/10 ∧ score scenarioStore 1 12 = 7/10 ∧
    max (score scenarioStore 1 11 * (1/2)) (score scenarioStore 1 12 * (9/10)) = 63/100 := by
  with_unfolding_all decide

theorem matchfrac_of_pos (store : EventStore) (u r : Track) (hids : 0 < nLHCbIDs store u) :
    matchfrac store u r = some (floatScore store u r) := by
  unfold matchfrac
  rw [if_neg (Nat.pos_iff_ne_zero.mp hids)]

theorem floatLt_matchfrac_of_pos (cfg : Properties) (store : EventStore) (u r : Track)
    (hids : 0 < nLHCbIDs store u) :
    floatLt (matchfrac store u r) (threshold cfg) = false ↔
      threshold cfg ≤ floatScore store u r := by
  rw [matchfrac_of_pos store u r hids]
  simp [floatLt]

/-- C3, evaluated at failing inputs: with one input track, a usable location `A` and a
second configured location that lacks its link table (`B`) or its track container
(`C`), stage 1 dereferences the null `linkedtracks[location]`; configured with `A`
alone, the same event store yields the link `(1, 100, 0.5)`. -/
theorem unusable_location_faults :
    execute mixedCfgB mixedStore = .error (.nullTracks "B") ∧
    execute mixedCfgC mixedStore = .error (.nullTracks "C") ∧
    execute singleCfg mixedStore =
      .ok ⟨.SUCCESS, [(1, 100, 1/2)],
        [.getIfExists "In", .newLinker "A", .getIfExists "A", .newLinkerWithKey "In"]⟩ := by
  with_unfolding_all decide

/-- C4, refuted as stated. First, with `TrackMatchFrac` 0.7000000001 the scores 0.7 and
0.6 of track 1 are both strictly below the threshold, and yet the relation to track 12
is inserted and a link is written for track 1: the gate of line 51 compares binary32
values, and 0.7 and the threshold round to the same one. Second, with `LinkedTracks`
[A, B], where nothing is found at `B`, the only score is below the threshold and the
invocation does not succeed: stage 1 stops at the null container of `B`. -/
theorem rounded_gate_relates_below_threshold :
    0 < nLHCbIDs gateStore 1 ∧
    (∀ location ∈ nearCfg.m_linkedtracks, ∀ r ∈ tracksAt gateStore location,
      score gateStore 1 r < nearCfg.m_matchfrac) ∧
    buildRelations nearCfg gateStore (found nearCfg gateStore).linkedtracks [1] [] =
      .ok [(1, 12, 0)] ∧
    execute nearCfg gateStore =
      .ok ⟨.SUCCESS, [(1, 100, 0)],
        [.getIfExists "In", .newLinker "A", .getIfExists "A", .newLinkerWithKey "In"]⟩ ∧
    0 < nLHCbIDs lowStore 1 ∧
    (∀ location ∈ lowCfgAB.m_linkedtracks, ∀ r ∈ tracksAt lowStore location,
      score lowStore 1 r < lowCfgAB.m_matchfrac) ∧
    execute lowCfgAB lowStore = .error (.nullTracks "B") := by
  with_unfolding_all decide

/-- C4, amended: when the input tracks are present and every configured location is
usable, an input track `u` with at least one identifier whose binary32 match fraction
against every reference track of every configured container is strictly below the
binary32 threshold has no relation in the table built by stage 1, and `execute`
returns `SUCCESS` with no output link for `u`, whatever the link tables hold. -/
theorem no_link_below_threshold (cfg : Properties) (store : EventStore)
    (inputtracks : List Track)
    (hin : store.tracks cfg.m_inputtracks = some inputtracks)
    (huse : allUsable cfg store) (u : Track) (hids : 0 < nLHCbIDs store u)
    (hlow : ∀ location ∈ cfg.m_linkedtracks, ∀ r ∈ tracksAt store location,
      floatScore store u r < threshold cfg) :
    ∃ table res,
      buildRelations cfg store (found cfg store).linkedtracks inputtracks [] = .ok table ∧
      relations table u = [] ∧
      execute cfg store = .ok res ∧ res.status = .SUCCESS ∧
      ∀ link ∈ res.outputlinks, link.1 ≠ u := by
  obtain ⟨log, hexec⟩ := execute_usable_links cfg store inputtracks hin huse
  have hrel : relations (inputtracks.flatMap (rowsOf cfg store)) u = [] := by
    apply List.eq_nil_iff_forall_not_mem.mpr
    intro row hrow
    have h1 := ((mem_relations_flatMap cfg store inputtracks u row).mp hrow).2
    have h2 := (mem_rowsOf cfg store u row).mp h1
    obtain ⟨location, hloc, hr⟩ := h2.2.1
    have h3 := (floatLt_matchfrac_of_pos cfg store u row.2.1 hids).mp h2.2.2.1
    exact absurd (hlow location hloc row.2.1 hr) (not_lt.mpr h3)
  refine ⟨inputtracks.flatMap (rowsOf cfg store), _, ?_, hrel, hexec, rfl, ?_⟩
  · rw [buildRelations_found cfg store huse]
    rfl
  · intro link hlink hu
    have h := ((mem_expectedLinks cfg store inputtracks link).mp hlink).2
    rw [hu, hrel] at h
    simp [weightsOf] at h

/-- Witness of C4 as amended: the only reference track shares six of ten identifiers. -/
theorem no_link_below_threshold_witness :
    ∃ table res,
      buildRelations singleCfg lowStore (found singleCfg lowStore).linkedtracks [1] [] =
        .ok table ∧
      relations table 1 = [] ∧
      execute singleCfg lowStore = .ok res ∧ res.status = .SUCCESS ∧
      ∀ link ∈ res.outputlinks, link.1 ≠ 1 :=
  no_link_below_threshold singleCfg lowStore [1] rfl (by decide) 1 (by decide)
    (by with_unfolding_all decide)

/-- C5, evaluated at a failing input: with `LinkedTracks` [A, B], where `B` has no link
table, stage 1 relates track 1 to track 11 of `A`, whose resolved link table enumerates
particle 100 for it, and then dereferences the null container of `B`; no link is
written for particle 100. -/
theorem uniqueness_lost_by_fault :
    matchLocations mixedCfgB mixedStore (found mixedCfgB mixedStore).linkedtracks 1 ["A"] [] =
      .ok [(1, 11, 1)] ∧
    (match resolveLinker mixedCfgB (found mixedCfgB mixedStore).linkedtracks
        (found mixedCfgB mixedStore).linkers 11 with
      | .ok linker => linker 11
      | .error _ => []) = [(100, 1/2)] ∧
    buildRelations mixedCfgB mixedStore (found mixedCfgB mixedStore).linkedtracks [1] [] =
      .error (.nullTracks "B") ∧
    execute mixedCfgB mixedStore = .error (.nullTracks "B") := by
  with_unfolding_all decide

/-- Uniqueness of the output links where the code keeps it: when the input tracks are
present (a container of distinct objects) and every
configured location is usable, `execute` completes and, for every track `u` and every
particle `p`, the output holds at most one link from `u` to `p`; it holds exactly one
if and only if the table built by stage 1 relates `u` to some reference track `r`
whose resolved link table enumerates `p` for `r`. -/
theorem output_links_unique (cfg : Properties) (store : EventStore)
    (inputtracks : List Track)
    (hin : store.tracks cfg.m_inputtracks = some inputtracks)
    (hnodup : inputtracks.Nodup) (huse : allUsable cfg store) :
    ∃ table res,
      buildRelations cfg store (found cfg store).linkedtracks inputtracks [] = .ok table ∧
      execute cfg store = .ok res ∧
      ∀ u p,
        List.countP (fun link : Link => decide (link.1 = u ∧ link.2.1 = p)) res.outputlinks ≤ 1 ∧
        (List.countP (fun link : Link => decide (link.1 = u ∧ link.2.1 = p)) res.outputlinks = 1 ↔
          ∃ r w, (u, r, w) ∈ table ∧ ∃ linker,
            resolveLinker cfg (found cfg store).linkedtracks (found cfg store).linkers r =
              .ok linker ∧
            ∃ entry ∈ linker r, entry.1 = p) := by
  obtain ⟨log, hexec⟩ := execute_usable_links cfg store inputtracks hin huse
  refine ⟨inputtracks.flatMap (rowsOf cfg store), _, ?_, hexec, ?_⟩
  · rw [buildRelations_found cfg store huse]
    rfl
  · intro u p
    have hcount := countP_flatMap_emit
      (fun v => weightsOf cfg store (relations (inputtracks.flatMap (rowsOf cfg store)) v))
      inputtracks u p hnodup
    have hnd := nodup_keys_weightsOf cfg store
      (relations (inputtracks.flatMap (rowsOf cfg store)) u)
    change List.countP _ (expectedLinks cfg store inputtracks) ≤ 1 ∧
      (List.countP _ (expectedLinks cfg store inputtracks) = 1 ↔ _)
    unfold expectedLinks
    rw [hcount, List.count_eq_of_nodup hnd]
    constructor
    · split
      · split <;> simp
      · simp
    · constructor
      · intro hone
        by_cases hu : u ∈ inputtracks
        · rw [if_pos hu] at hone
          by_cases hp : p ∈ keys (weightsOf cfg store
              (relations (inputtracks.flatMap (rowsOf cfg store)) u))
          · obtain ⟨row, hrow, entry, hentry, hfst⟩ :=
              (mem_keys_weightsOf cfg store _ p).mp hp
            have h1 := (mem_relations_flatMap cfg store inputtracks u row).mp hrow
            have h2 := (mem_rowsOf cfg store u row).mp h1.2
            refine ⟨row.2.1, row.2.2, ?_, linkerOf cfg store row.2.1,
              resolveLinker_found cfg store huse row.2.1 h2.2.1, entry, hentry, hfst⟩
            have hrowmem : row ∈ inputtracks.flatMap (rowsOf cfg store) :=
              (List.mem_filter.mp hrow).1
            rw [← h2.1]
            exact hrowmem
          · rw [if_neg hp] at hone
            cases hone
        · rw [if_neg hu] at hone
          cases hone
      · rintro ⟨r, w, hrow, linker, hres, entry, hentry, hfst⟩
        have hrel : (u, r, w) ∈ relations (inputtracks.flatMap (rowsOf cfg store)) u := by
          unfold relations
          exact List.mem_filter.mpr ⟨hrow, by simp⟩
        have h1 := (mem_relations_flatMap cfg store inputtracks u (u, r, w)).mp hrel
        have h2 := (mem_rowsOf cfg store u (u, r, w)).mp h1.2
        have hres2 := resolveLinker_found cfg store huse r h2.2.1
        rw [hres] at hres2
        have hlinker : linker = linkerOf cfg store r := Except.ok.inj hres2
        rw [if_pos h1.1, if_pos]
        apply (mem_keys_weightsOf cfg store _ p).mpr
        exact ⟨(u, r, w), hrel, entry, hlinker ▸ hentry, hfst⟩

/-- Instance of `output_links_unique`: two relations of track 1 reach the same
particle 100. -/
theorem output_links_unique_witness :
    ∃ table res,
      buildRelations scenarioCfg scenarioStore (found scenarioCfg scenarioStore).linkedtracks
        [1] [] = .ok table ∧
      execute scenarioCfg scenarioStore = .ok res ∧
      ∀ u p,
        List.countP (fun link : Link => decide (link.1 = u ∧ link.2.1 = p)) res.outputlinks ≤ 1 ∧
        (List.countP (fun link : Link => decide (link.1 = u ∧ link.2.1 = p)) res.outputlinks = 1 ↔
          ∃ r w, (u, r, w) ∈ table ∧ ∃ linker,
            resolveLinker scenarioCfg (found scenarioCfg scenarioStore).linkedtracks
              (found scenarioCfg scenarioStore).linkers r = .ok linker ∧
            ∃ entry ∈ linker r, entry.1 = p) :=
  output_links_unique scenarioCfg scenarioStore [1] rfl (by decide) (by decide)

/-- C6, refuted as stated: for track 1 (ten identifiers) and track 11 (eight of them
shared) line 50 computes the binary32 value 13421773/2^24, which is not the quotient
8/10 (it is slightly larger). -/
theorem matchfrac_is_rounded :
    0 < (scenarioStore.lhcbIDs 1).card ∧
    matchfrac scenarioStore 1 11 = some (13421773/16777216) ∧
    score scenarioStore 1 11 = 8/10 ∧
    score scenarioStore 1 11 < 13421773/16777216 :=
  ⟨by decide, by with_unfolding_all rfl, by with_unfolding_all decide,
    by with_unfolding_all decide⟩

/-- C6, amended: for an input track `u` with at least one identifier and any reference
track `r`, the match fraction computed at line 50 is the binary32 quotient of the two
counts converted to `float`; it lies between 0 and 1; and when `u` has at most `2^24`
identifiers it is the binary32 rounding of the number of identifiers of `u` shared
with `r` divided by the number of identifiers of `u`, within `2^(-25)` of that
quotient. -/
theorem matchfrac_rounds_score (store : EventStore) (u r : Track)
    (hids : 0 < (store.lhcbIDs u).card) :
    matchfrac store u r =
      some (fl32 (fl32 ((store.lhcbIDs u ∩ store.lhcbIDs r).card : ℚ) /
        fl32 ((store.lhcbIDs u).card : ℚ))) ∧
    0 ≤ floatScore store u r ∧ floatScore store u r ≤ 1 ∧
    ((store.lhcbIDs u).card ≤ 2 ^ 24 →
      matchfrac store u r =
        some (fl32 (((store.lhcbIDs u ∩ store.lhcbIDs r).card : ℚ) /
          ((store.lhcbIDs u).card : ℚ))) ∧
      |floatScore store u r - score store u r| ≤ 1 / 33554432) := by
  have h := matchfrac_of_pos store u r hids
  refine ⟨h, floatScore_nonneg store u r, floatScore_le_one store u r hids, ?_⟩
  intro hsmall
  have heq := floatScore_eq_fl32_score store u r hsmall
  refine ⟨?_, ?_⟩
  · rw [h, heq]
    rfl
  · rw [heq]
    have h0 : 0 ≤ score store u r := by
      unfold score
      positivity
    exact fl32_sub_le _ h0 (score_le_one store u r hids)

/-- Witness of C6 as amended: track 1 has ten identifiers, eight of them shared with
track 11. -/
theorem matchfrac_rounds_score_witness :
    matchfrac scenarioStore 1 11 =
      some (fl32 (fl32 ((scenarioStore.lhcbIDs 1 ∩ scenarioStore.lhcbIDs 11).card : ℚ) /
        fl32 ((scenarioStore.lhcbIDs 1).card : ℚ))) ∧
    0 ≤ floatScore scenarioStore 1 11 ∧ floatScore scenarioStore 1 11 ≤ 1 ∧
    ((scenarioStore.lhcbIDs 1).card ≤ 2 ^ 24 →
      matchfrac scenarioStore 1 11 =
        some (fl32 (((scenarioStore.lhcbIDs 1 ∩ scenarioStore.lhcbIDs 11).card : ℚ) /
          ((scenarioStore.lhcbIDs 1).card : ℚ))) ∧
      |floatScore scenarioStore 1 11 - score scenarioStore 1 11| ≤ 1 / 33554432) :=
  matchfrac_rounds_score scenarioStore 1 11 (by decide)

/-- C7: with the input tracks present, the test of line 38 (`linkedtracks` empty or
`linkers` empty) holds exactly when no configured location yielded both a link table
and a track container, and `execute` takes the early exit of lines 39-40 (success, no
output link, the warning as last event, no output linker constructed) exactly then. -/
theorem early_exit_iff_none_usable (cfg : Properties) (store : EventStore)
    (inputtracks : List Track)
    (hin : store.tracks cfg.m_inputtracks = some inputtracks) :
    ((((found cfg store).linkedtracks.isEmpty || (found cfg store).linkers.isEmpty) = true) ↔
      noneUsable cfg store) ∧
    (execute cfg store =
        .ok ⟨.SUCCESS, [], (found cfg store).log ++ [.warning .noLinkedTracks]⟩ ↔
      noneUsable cfg store) := by
  refine ⟨found_empty_iff cfg store, ?_, execute_noneUsable cfg store inputtracks hin⟩
  intro h
  by_contra hnot
  have hif := mt (found_empty_iff cfg store).mp hnot
  unfold found at hif h
  unfold execute at h
  simp only [hin] at h
  rw [if_neg hif] at h
  split at h
  · cases h
  · split at h
    · cases h
    · have hlog := congrArg Result.log (Except.ok.inj h)
      simp at hlog

/-- Witness of C7: nothing at the only configured location. -/
theorem early_exit_iff_none_usable_witness :
    ((((found singleCfg missingStore).linkedtracks.isEmpty ||
        (found singleCfg missingStore).linkers.isEmpty) = true) ↔
      noneUsable singleCfg missingStore) ∧
    (execute singleCfg missingStore =
        .ok ⟨.SUCCESS, [], (found singleCfg missingStore).log ++ [.warning .noLinkedTracks]⟩ ↔
      noneUsable singleCfg missingStore) :=
  early_exit_iff_none_usable singleCfg missingStore [1] rfl

/-- C8, refuted as stated: with a usable reference location whose track container is
empty, `execute` does not take the exit of lines 38-41; it issues no warning, runs both
stages and constructs the output linker, so its outcome differs from the one obtained
when the location is missing, and the status is `SUCCESS` in both cases. -/
theorem empty_collection_runs_stages :
    tracksAt emptyStore "A" = [] ∧
    execute singleCfg emptyStore =
      .ok ⟨.SUCCESS, [],
        [.getIfExists "In", .newLinker "A", .getIfExists "A", .newLinkerWithKey "In"]⟩ ∧
    execute singleCfg missingStore =
      .ok ⟨.SUCCESS, [],
        [.getIfExists "In", .newLinker "A", .warning (.linksNotFound "A"),
          .warning .noLinkedTracks]⟩ ∧
    execute singleCfg emptyStore ≠ execute singleCfg missingStore := by
  with_unfolding_all decide

/-- C8, amended: with the input tracks present, if no configured location is usable
then `execute` performs neither stage, ends with the warning of line 39 and returns
`SUCCESS`; if at least one location is configured, all are usable and every track
container is empty, then `execute` goes through both stages, constructs the output
linker, writes no link, issues no such warning and returns the same `SUCCESS`. -/
theorem missing_or_empty_references (cfg : Properties) (store : EventStore)
    (inputtracks : List Track)
    (hin : store.tracks cfg.m_inputtracks = some inputtracks) :
    (noneUsable cfg store →
      execute cfg store =
        .ok ⟨.SUCCESS, [], (found cfg store).log ++ [.warning .noLinkedTracks]⟩) ∧
    (cfg.m_linkedtracks ≠ [] → allUsable cfg store →
      (∀ location ∈ cfg.m_linkedtracks, tracksAt store location = []) →
      execute cfg store =
        .ok ⟨.SUCCESS, [], (found cfg store).log ++ [.newLinkerWithKey cfg.m_inputtracks]⟩) := by
  refine ⟨execute_noneUsable cfg store inputtracks hin, ?_⟩
  intro hne huse hempty
  rw [execute_usable cfg store inputtracks hin huse hne]
  have hnil : expectedLinks cfg store inputtracks = [] := by
    apply List.eq_nil_iff_forall_not_mem.mpr
    intro link hlink
    have h := ((mem_expectedLinks cfg store inputtracks link).mp hlink).2
    have hkey : link.2.1 ∈ keys (weightsOf cfg store
        (relations (inputtracks.flatMap (rowsOf cfg store)) link.1)) :=
      List.mem_map.mpr ⟨(link.2.1, link.2.2), h, rfl⟩
    obtain ⟨row, hrow, _⟩ := (mem_keys_weightsOf cfg store _ _).mp hkey
    have h1 := (mem_relations_flatMap cfg store inputtracks link.1 row).mp hrow
    obtain ⟨location, hloc, hr⟩ := ((mem_rowsOf cfg store link.1 row).mp h1.2).2.1
    rw [hempty location hloc] at hr
    cases hr
  rw [hnil]

/-- Witness of C8 as amended: a missing location, and a usable but empty one. -/
theorem missing_or_empty_references_witness :
    execute singleCfg missingStore =
      .ok ⟨.SUCCESS, [], (found singleCfg missingStore).log ++ [.warning .noLinkedTracks]⟩ ∧
    execute singleCfg emptyStore =
      .ok ⟨.SUCCESS, [],
        (found singleCfg emptyStore).log ++ [.newLinkerWithKey singleCfg.m_inputtracks]⟩ :=
  ⟨(missing_or_empty_references singleCfg missingStore [1] rfl).1 (by decide),
    (missing_or_empty_references singleCfg emptyStore [1] rfl).2 (by decide) (by decide)
      (by decide)⟩

/-- C9: if no track container is found at the input location then, whatever the
reference locations hold, `execute` returns `SUCCESS` with no output link after a single
event-store read (of the input location) and one warning; no reference location is
read and no linker is constructed. -/
theorem missing_input_returns_success (cfg : Properties) (store : EventStore)
    (habsent : store.tracks cfg.m_inputtracks = none) :
    execute cfg store =
      .ok ⟨.SUCCESS, [],
        [.getIfExists cfg.m_inputtracks, .warning (.noTracksAt cfg.m_inputtracks)]⟩ := by
  unfold execute
  simp only [habsent]

/-- Witness of C9: an input location that holds nothing, with usable references. -/
theorem missing_input_returns_success_witness :
    execute absentCfg scenarioStore =
      .ok ⟨.SUCCESS, [],
        [.getIfExists absentCfg.m_inputtracks, .warning (.noTracksAt absentCfg.m_inputtracks)]⟩ :=
  missing_input_returns_success absentCfg scenarioStore rfl

/-- C10: when every configured location is usable, stage 1 completes and, for every
relation `(u, r, w)` of its table, the list of configured locations splits as
`pre ++ location :: post` where the container at `location` holds `r` and no container
of `pre` does; the scan of lines 70-76 stops at `location`, line 77 yields the link
table of `location`, and walking the relation folds exactly the entries that this
table enumerates for `r` into `mcpweights`, whatever the containers of `post` hold. -/
theorem provenance_first_declared (cfg : Properties) (store : EventStore)
    (inputtracks : List Track) (huse : allUsable cfg store) :
    ∃ table, buildRelations cfg store (found cfg store).linkedtracks inputtracks [] = .ok table ∧
      ∀ row ∈ table, ∃ pre location post linker,
        cfg.m_linkedtracks = pre ++ location :: post ∧
        row.2.1 ∈ tracksAt store location ∧
        (∀ earlier ∈ pre, row.2.1 ∉ tracksAt store earlier) ∧
        findLocation (found cfg store).linkedtracks row.2.1 cfg.m_linkedtracks =
          .ok (some location) ∧
        store.links location = some linker ∧
        resolveLinker cfg (found cfg store).linkedtracks (found cfg store).linkers row.2.1 =
          .ok linker ∧
        ∀ rest mcpweights,
          propagate cfg (found cfg store).linkedtracks (found cfg store).linkers
              (row :: rest) mcpweights =
            propagate cfg (found cfg store).linkedtracks (found cfg store).linkers rest
              ((linker row.2.1).foldl (addLink row.2.2) mcpweights) := by
  refine ⟨inputtracks.flatMap (rowsOf cfg store), ?_, ?_⟩
  · rw [buildRelations_found cfg store huse]
    rfl
  · intro row hrow
    obtain ⟨v, _, hv⟩ := List.mem_flatMap.mp hrow
    have hsome := ((mem_rowsOf cfg store v row).mp hv).2.1
    obtain ⟨location, hfirst⟩ := firstLocation_isSome cfg store row.2.1 hsome
    have hmem := firstLocation_mem cfg store row.2.1 location hfirst
    obtain ⟨linker, hlinker⟩ := Option.isSome_iff_exists.mp (huse location hmem.1).1
    have hfind := hfirst
    unfold firstLocation at hfind
    obtain ⟨_, pre, post, hsplit, hpre⟩ := List.find?_eq_some.mp hfind
    have hres := resolveLinker_found cfg store huse row.2.1 hsome
    have hlinkerOf : linkerOf cfg store row.2.1 = linker := by
      simp [linkerOf, hfirst, hlinker]
    rw [hlinkerOf] at hres
    refine ⟨pre, location, post, linker, hsplit, hmem.2, ?_, ?_, hlinker, hres, ?_⟩
    · intro earlier hearlier
      simpa using hpre earlier hearlier
    · rw [findLocation_found cfg store huse row.2.1 cfg.m_linkedtracks (fun _ h => h)]
      exact congrArg Except.ok hfind
    · intro rest mcpweights
      conv_lhs => unfold propagate
      simp only [hres]

/-- Witness of C10: reference track 11 is held by the containers of `A` and of `B`; the
output holds the particle 100 of the link table of `A` and not the particle 200 of `B`. -/
theorem provenance_first_declared_witness :
    allUsable scenarioCfg dualStore ∧
    11 ∈ tracksAt dualStore "A" ∧ 11 ∈ tracksAt dualStore "B" ∧
    execute scenarioCfg dualStore =
      .ok ⟨.SUCCESS, [(1, 100, 1/2)],
        [.getIfExists "In", .newLinker "A", .getIfExists "A", .newLinker "B",
          .getIfExists "B", .newLinkerWithKey "In"]⟩ ∧
    ∃ table, buildRelations scenarioCfg dualStore (found scenarioCfg dualStore).linkedtracks
        [1] [] = .ok table ∧
      ∀ row ∈ table, ∃ pre location post linker,
        scenarioCfg.m_linkedtracks = pre ++ location :: post ∧
        row.2.1 ∈ tracksAt dualStore location ∧
        (∀ earlier ∈ pre, row.2.1 ∉ tracksAt dualStore earlier) ∧
        findLocation (found scenarioCfg dualStore).linkedtracks row.2.1
          scenarioCfg.m_linkedtracks = .ok (some location) ∧
        dualStore.links location = some linker ∧
        resolveLinker scenarioCfg (found scenarioCfg dualStore).linkedtracks
          (found scenarioCfg dualStore).linkers row.2.1 = .ok linker ∧
        ∀ rest mcpweights,
          propagate scenarioCfg (found scenarioCfg dualStore).linkedtracks
              (found scenarioCfg dualStore).linkers (row :: rest) mcpweights =
            propagate scenarioCfg (found scenarioCfg dualStore).linkedtracks
              (found scenarioCfg dualStore).linkers rest
              ((linker row.2.1).foldl (addLink row.2.2) mcpweights) :=
  ⟨by decide, by decide, by decide, by with_unfolding_all decide,
    provenance_first_declared scenarioCfg dualStore [1] (by decide)⟩

/-! ## Values held by `mcpweights` -/

theorem mcpFind_mcpAssign (mcpweights : MCPWeights) (mcp : MCParticle) (weight : ℚ)
    (p : MCParticle) :
    mcpFind (mcpAssign mcpweights mcp weight) p =
      if p = mcp then some weight else mcpFind mcpweights p := by
  induction mcpweights with
  | nil =>
    by_cases h : p = mcp
    · simp [mcpAssign, mcpFind, List.lookup_cons, h]
    · have hb : (p == mcp) = false := by simpa using h
      simp [mcpAssign, mcpFind, List.lookup_cons, h, hb]
  | cons e rest ih =>
    obtain ⟨k, v⟩ := e
    unfold mcpFind at ih ⊢
    unfold mcpAssign
    by_cases h1 : mcp < k
    · by_cases h : p = mcp
      · simp [h1, List.lookup_cons, h]
      · have hb : (p == mcp) = false := by simpa using h
        simp [h1, List.lookup_cons, h, hb]
    · by_cases h2 : mcp = k
      · subst h2
        by_cases h : p = mcp
        · simp [List.lookup_cons, h]
        · have hb : (p == mcp) = false := by simpa using h
          simp [List.lookup_cons, h, hb]
      · simp only [if_neg h1, if_neg h2]
        by_cases h : p = mcp
        · subst h
          have hpk : (p == k) = false := by simpa using h2
          simp only [List.lookup_cons, hpk, ih, if_true]
        · by_cases hk : p = k
          · subst hk
            simp [List.lookup_cons, h]
          · have hpk : (p == k) = false := by simpa using hk
            simp only [List.lookup_cons, hpk, ih, if_neg h]

theorem stdMax_eq_max (a b : ℚ) : stdMax a b = max a b := by
  unfold stdMax
  by_cases h : a < b
  · rw [if_pos h, max_eq_right (le_of_lt h)]
  · rw [if_neg h, max_eq_left (not_lt.mp h)]

theorem holdsMaxima_nil : holdsMaxima [] [] := by
  intro p
  simp [mcpFind]

theorem holdsMaxima_addLink (relweight : ℕ) (mcpweights : MCPWeights)
    (entry : MCParticle × ℚ) (paths : List (MCParticle × ℚ))
    (h : holdsMaxima mcpweights paths) :
    holdsMaxima (addLink relweight mcpweights entry)
      (paths ++ [(entry.1, entry.2 * (relweight : ℚ))]) := by
  intro p
  by_cases hp : p = entry.1
  · subst hp
    have hfind : mcpFind (addLink relweight mcpweights entry) entry.1 =
        some (match mcpFind mcpweights entry.1 with
          | none => entry.2 * (relweight : ℚ)
          | some old => stdMax (entry.2 * (relweight : ℚ)) old) := by
      unfold addLink
      cases mcpFind mcpweights entry.1 with
      | none => simp [mcpFind_mcpAssign]
      | some old => simp [mcpFind_mcpAssign]
    rw [hfind]
    refine ⟨fun hnone => Option.noConfusion hnone, ?_⟩
    intro v hv
    cases hold : mcpFind mcpweights entry.1 with
    | none =>
      rw [hold] at hv
      have hv1 : entry.2 * (relweight : ℚ) = v := Option.some.inj hv
      refine ⟨⟨_, List.mem_append_right _ (List.mem_singleton_self _), rfl, hv1⟩, ?_⟩
      intro x hx hx1
      rcases List.mem_append.mp hx with hx | hx
      · exact absurd hx1 ((h entry.1).1 hold x hx)
      · rw [List.mem_singleton.mp hx, ← hv1]
    | some old =>
      rw [hold] at hv
      have hv1 : stdMax (entry.2 * (relweight : ℚ)) old = v := Option.some.inj hv
      rw [stdMax_eq_max] at hv1
      obtain ⟨hatt, hbound⟩ := (h entry.1).2 old hold
      constructor
      · rcases le_total (entry.2 * (relweight : ℚ)) old with hle | hle
        · rw [max_eq_right hle] at hv1
          obtain ⟨x, hx, hx1, hx2⟩ := hatt
          exact ⟨x, List.mem_append_left _ hx, hx1, hx2.trans hv1⟩
        · rw [max_eq_left hle] at hv1
          exact ⟨_, List.mem_append_right _ (List.mem_singleton_self _), rfl, hv1⟩
      · intro x hx hx1
        rw [← hv1]
        rcases List.mem_append.mp hx with hx | hx
        · exact le_trans (hbound x hx hx1) (le_max_right _ _)
        · rw [List.mem_singleton.mp hx]
          exact le_max_left _ _
  · have hfind : mcpFind (addLink relweight mcpweights entry) p = mcpFind mcpweights p := by
      unfold addLink
      cases mcpFind mcpweights entry.1 with
      | none => simp [mcpFind_mcpAssign, hp]
      | some old => simp [mcpFind_mcpAssign, hp]
    rw [hfind]
    constructor
    · intro hnone x hx
      rcases List.mem_append.mp hx with hx | hx
      · exact (h p).1 hnone x hx
      · rw [List.mem_singleton.mp hx]
        exact fun heq => hp heq.symm
    · intro v hv
      obtain ⟨⟨x, hx, hx1, hx2⟩, hbound⟩ := (h p).2 v hv
      refine ⟨⟨x, List.mem_append_left _ hx, hx1, hx2⟩, ?_⟩
      intro y hy hy1
      rcases List.mem_append.mp hy with hy | hy
      · exact hbound y hy hy1
      · rw [List.mem_singleton.mp hy] at hy1
        exact absurd hy1.symm hp

theorem holdsMaxima_foldl_addLink (relweight : ℕ) (entries : List (MCParticle × ℚ))
    (mcpweights : MCPWeights) (paths : List (MCParticle × ℚ))
    (h : holdsMaxima mcpweights paths) :
    holdsMaxima (entries.foldl (addLink relweight) mcpweights)
      (paths ++ entries.map (fun entry => (entry.1, entry.2 * (relweight : ℚ)))) := by
  induction entries generalizing mcpweights paths with
  | nil => simpa using h
  | cons e rest ih =>
    have hstep := ih _ _ (holdsMaxima_addLink relweight mcpweights e paths h)
    simpa [List.foldl_cons, List.map_cons, List.append_assoc] using hstep

theorem holdsMaxima_foldl_rows (linker : Track → Linker) (rels : RelationTable)
    (mcpweights : MCPWeights) (paths : List (MCParticle × ℚ))
    (h : holdsMaxima mcpweights paths) :
    holdsMaxima (rels.foldl (fun mcpweights row =>
        (linker row.2.1 row.2.1).foldl (addLink row.2.2) mcpweights) mcpweights)
      (paths ++ products linker rels) := by
  induction rels generalizing mcpweights paths with
  | nil => simpa [products] using h
  | cons r rest ih =>
    have hstep := ih _ _ (holdsMaxima_foldl_addLink r.2.2 (linker r.2.1 r.2.1) mcpweights paths h)
    simpa [List.foldl_cons, products, List.flatMap_cons, List.append_assoc] using hstep

theorem holdsMaxima_weightsOf (cfg : Properties) (store : EventStore) (rels : RelationTable) :
    holdsMaxima (weightsOf cfg store rels) (products (linkerOf cfg store) rels) := by
  have h := holdsMaxima_foldl_rows (linkerOf cfg store) rels [] [] holdsMaxima_nil
  simpa [weightsOf] using h

theorem holdsMaxima_iff (mcpweights : MCPWeights) (paths : List (MCParticle × ℚ))
    (h : holdsMaxima mcpweights paths) (p : MCParticle) (v : ℚ) :
    mcpFind mcpweights p = some v ↔
      (∃ x ∈ paths, x.1 = p ∧ x.2 = v) ∧ ∀ x ∈ paths, x.1 = p → x.2 ≤ v := by
  constructor
  · exact (h p).2 v
  · rintro ⟨⟨x, hx, hx1, hx2⟩, hbound⟩
    cases hfind : mcpFind mcpweights p with
    | none => exact absurd hx1 ((h p).1 hfind x hx)
    | some w =>
      obtain ⟨⟨y, hy, hy1, hy2⟩, hboundw⟩ := (h p).2 w hfind
      have h1 : w ≤ v := hy2 ▸ hbound y hy hy1
      have h2 : v ≤ w := hx2 ▸ hboundw x hx hx1
      rw [le_antisymm h1 h2]

theorem mem_products (linker : Track → Linker) (rels : RelationTable)
    (x : MCParticle × ℚ) :
    x ∈ products linker rels ↔
      ∃ row ∈ rels, ∃ entry ∈ linker row.2.1 row.2.1,
        entry.1 = x.1 ∧ entry.2 * (row.2.2 : ℚ) = x.2 := by
  unfold products
  rw [List.mem_flatMap]
  constructor
  · rintro ⟨row, hrow, hx⟩
    obtain ⟨entry, hentry, heq⟩ := List.mem_map.mp hx
    subst heq
    exact ⟨row, hrow, entry, hentry, rfl, rfl⟩
  · rintro ⟨row, hrow, entry, hentry, h1, h2⟩
    refine ⟨row, hrow, List.mem_map.mpr ⟨entry, hentry, ?_⟩⟩
    exact Prod.ext h1 h2

theorem mem_iff_mcpFind (mcpweights : MCPWeights) (hnodup : (keys mcpweights).Nodup)
    (p : MCParticle) (v : ℚ) :
    (p, v) ∈ mcpweights ↔ mcpFind mcpweights p = some v := by
  induction mcpweights with
  | nil => simp [mcpFind]
  | cons e rest ih =>
    obtain ⟨k, w⟩ := e
    have hk : k ∉ keys rest := (List.nodup_cons.mp hnodup).1
    have ih1 := ih (List.nodup_cons.mp hnodup).2
    unfold mcpFind at ih1 ⊢
    by_cases hpk : p = k
    · subst hpk
      have hnot : (p, v) ∉ rest := fun hmem => hk (List.mem_map.mpr ⟨(p, v), hmem, rfl⟩)
      simp [List.lookup_cons, hnot]
      exact eq_comm
    · have hb : (p == k) = false := by simpa using hpk
      simp only [List.mem_cons, Prod.mk.injEq, hpk, false_and, false_or, List.lookup_cons, hb]
      exact ih1

/-! ## Claims on the weights -/

/-- C11, evaluated at the scenario of section 8 of the specification: track 1 shares 8
of its 10 identifiers with track 11 and 7 with track 12, both match fractions pass the
threshold 0.7, and the relations read back from the table carry the weight 0, not 0.8
and 0.7: the conversion to the `unsigned int` weight type of the table truncates. -/
theorem relation_weight_truncated :
    buildRelations scenarioCfg scenarioStore (found scenarioCfg scenarioStore).linkedtracks
      [1] [] = .ok [(1, 11, 0), (1, 12, 0)] ∧
    relations [(1, 11, 0), (1, 12, 0)] 1 = [(1, 11, 0), (1, 12, 0)] ∧
    matchfrac scenarioStore 1 11 = some (13421773/16777216) ∧
    score scenarioStore 1 11 = 8/10 ∧
    toUnsigned scenarioStore (matchfrac scenarioStore 1 11) = 0 ∧
    matchfrac scenarioStore 1 12 = some (11744051/16777216) ∧
    score scenarioStore 1 12 = 7/10 ∧
    toUnsigned scenarioStore (matchfrac scenarioStore 1 12) = 0 :=
  ⟨by with_unfolding_all decide, by decide, by with_unfolding_all rfl,
    by with_unfolding_all decide, by with_unfolding_all decide, by with_unfolding_all rfl,
    by with_unfolding_all decide, by with_unfolding_all decide⟩

/-- C12: when every configured location is usable, for any sequence of relations
whose targets lie in configured containers, the loop of lines 68-89 completes, every
relation is resolved to the link table `linkerOf` of its target, and the resulting map
`mcpweights` has exactly the particles enumerated for some relation as keys and maps
each particle `p` to the maximum of `linker.weight() * trackrelation.weight()` over
all relations and all enumerated entries with particle `p`: the stored value is one of
these products and no such product exceeds it. -/
theorem stage2_fold_is_maximum (cfg : Properties) (store : EventStore)
    (huse : allUsable cfg store) (rels : RelationTable)
    (hrels : ∀ row ∈ rels, ∃ location ∈ cfg.m_linkedtracks, row.2.1 ∈ tracksAt store location) :
    ∃ mcpweights,
      propagate cfg (found cfg store).linkedtracks (found cfg store).linkers rels [] =
        .ok mcpweights ∧
      (∀ row ∈ rels,
        resolveLinker cfg (found cfg store).linkedtracks (found cfg store).linkers row.2.1 =
          .ok (linkerOf cfg store row.2.1)) ∧
      ∀ p,
        (p ∈ keys mcpweights ↔
          ∃ row ∈ rels, ∃ entry ∈ linkerOf cfg store row.2.1 row.2.1, entry.1 = p) ∧
        ∀ v, mcpFind mcpweights p = some v ↔
          (∃ row ∈ rels, ∃ entry ∈ linkerOf cfg store row.2.1 row.2.1,
            entry.1 = p ∧ entry.2 * (row.2.2 : ℚ) = v) ∧
          (∀ row ∈ rels, ∀ entry ∈ linkerOf cfg store row.2.1 row.2.1,
            entry.1 = p → entry.2 * (row.2.2 : ℚ) ≤ v) := by
  refine ⟨weightsOf cfg store rels, ?_, ?_, ?_⟩
  · rw [propagate_found cfg store huse rels [] hrels]
    rfl
  · intro row hrow
    exact resolveLinker_found cfg store huse row.2.1 (hrels row hrow)
  · intro p
    refine ⟨mem_keys_weightsOf cfg store rels p, ?_⟩
    intro v
    rw [holdsMaxima_iff _ _ (holdsMaxima_weightsOf cfg store rels) p v]
    constructor
    · rintro ⟨⟨x, hx, hx1, hx2⟩, hbound⟩
      obtain ⟨row, hrow, entry, hentry, h1, h2⟩ := (mem_products _ _ x).mp hx
      refine ⟨⟨row, hrow, entry, hentry, h1.trans hx1, h2.trans hx2⟩, ?_⟩
      intro row1 hrow1 entry1 hentry1 hp1
      exact hbound (entry1.1, entry1.2 * (row1.2.2 : ℚ))
        ((mem_products _ _ _).mpr ⟨row1, hrow1, entry1, hentry1, rfl, rfl⟩) hp1
    · rintro ⟨⟨row, hrow, entry, hentry, h1, h2⟩, hbound⟩
      refine ⟨⟨(p, v), (mem_products _ _ _).mpr ⟨row, hrow, entry, hentry, h1, h2⟩, rfl, rfl⟩, ?_⟩
      intro x hx hx1
      obtain ⟨row1, hrow1, entry1, hentry1, h3, h4⟩ := (mem_products _ _ x).mp hx
      rw [← h4]
      exact hbound row1 hrow1 entry1 hentry1 (h3.trans hx1)

/-- Witness of C12: three relations of weight 1 reach particle 100 with link weights
0.3, 0.9 and 0.5; the map holds 0.9 for it, which is neither the sum 1.7, nor the
first product 0.3, nor the last 0.5. -/
theorem stage2_fold_is_maximum_witness :
    ∃ mcpweights,
      propagate singleCfg (found singleCfg maxStore).linkedtracks
        (found singleCfg maxStore).linkers [(1, 11, 1), (1, 14, 1), (1, 15, 1)] [] =
        .ok mcpweights ∧
      mcpFind mcpweights 100 = some (9/10) ∧ mcpFind mcpweights 200 = some (1/5) ∧
      ∀ p, p ∈ keys mcpweights → p = 100 ∨ p = 200 := by
  obtain ⟨mcpweights, hprop, _, hmax⟩ :=
    stage2_fold_is_maximum singleCfg maxStore (by decide)
      [(1, 11, 1), (1, 14, 1), (1, 15, 1)] (by decide)
  refine ⟨mcpweights, hprop, ((hmax 100).2 (9/10)).mpr (by with_unfolding_all decide),
    ((hmax 200).2 (1/5)).mpr (by with_unfolding_all decide), ?_⟩
  intro p hp
  obtain ⟨row, hrow, entry, hentry, hfst⟩ := ((hmax p).1).mp hp
  have hall : ∀ row ∈ [((1 : Track), (11 : Track), (1 : ℕ)), (1, 14, 1), (1, 15, 1)],
      ∀ entry ∈ linkerOf singleCfg maxStore row.2.1 row.2.1,
        entry.1 = 100 ∨ entry.1 = 200 := by
    with_unfolding_all decide
  rw [← hfst]
  exact hall row hrow entry hentry

/-! ## Canonical form of `mcpweights` -/

theorem mcpFind_eq_none_iff (mcpweights : MCPWeights) (p : MCParticle) :
    mcpFind mcpweights p = none ↔ p ∉ keys mcpweights := by
  induction mcpweights with
  | nil => simp [mcpFind, keys]
  | cons e rest ih =>
    obtain ⟨k, v⟩ := e
    unfold mcpFind keys at ih ⊢
    by_cases hpk : p = k
    · subst hpk
      simp [List.lookup_cons]
    · have hb : (p == k) = false := by simpa using hpk
      simp only [List.lookup_cons, hb, List.map_cons, List.mem_cons, hpk, false_or]
      exact ih

theorem sorted_ext (m1 m2 : MCPWeights)
    (h1 : (keys m1).Pairwise (fun a b => a < b))
    (h2 : (keys m2).Pairwise (fun a b => a < b))
    (hfind : ∀ p, mcpFind m1 p = mcpFind m2 p) : m1 = m2 := by
  induction m1 generalizing m2 with
  | nil =>
    cases m2 with
    | nil => rfl
    | cons e rest =>
      obtain ⟨k, v⟩ := e
      have h := hfind k
      simp [mcpFind, List.lookup_cons] at h
  | cons e1 r1 ih =>
    cases m2 with
    | nil =>
      have h := hfind e1.1
      simp [mcpFind, List.lookup_cons] at h
    | cons e2 r2 =>
      obtain ⟨k1, v1⟩ := e1
      obtain ⟨k2, v2⟩ := e2
      have hk1 : ∀ b ∈ keys r1, k1 < b := (List.pairwise_cons.mp h1).1
      have hk2 : ∀ b ∈ keys r2, k2 < b := (List.pairwise_cons.mp h2).1
      have hs1 : (keys r1).Pairwise (fun a b => a < b) := (List.pairwise_cons.mp h1).2
      have hs2 : (keys r2).Pairwise (fun a b => a < b) := (List.pairwise_cons.mp h2).2
      have hself1 : mcpFind ((k1, v1) :: r1) k1 = some v1 := by
        simp [mcpFind, List.lookup_cons]
      have hself2 : mcpFind ((k2, v2) :: r2) k2 = some v2 := by
        simp [mcpFind, List.lookup_cons]
      have hin2 : k1 ∈ keys ((k2, v2) :: r2) := by
        by_contra hnot
        have hnone := (mcpFind_eq_none_iff _ k1).mpr hnot
        rw [← hfind k1, hself1] at hnone
        cases hnone
      have hin1 : k2 ∈ keys ((k1, v1) :: r1) := by
        by_contra hnot
        have hnone := (mcpFind_eq_none_iff _ k2).mpr hnot
        rw [hfind k2, hself2] at hnone
        cases hnone
      have hkeq : k1 = k2 := by
        rcases List.mem_cons.mp hin2 with h | h
        · exact h
        · rcases List.mem_cons.mp hin1 with h3 | h3
          · exact h3.symm
          · exact absurd (lt_trans (hk2 k1 h) (hk1 k2 h3)) (lt_irrefl k2)
      subst hkeq
      have hveq : v1 = v2 := by
        have h := hfind k1
        rw [hself1, hself2] at h
        exact Option.some.inj h
      subst hveq
      have hrest : r1 = r2 := by
        apply ih r2 hs1 hs2
        intro p
        by_cases hp : p = k1
        · subst hp
          have hn1 : p ∉ keys r1 := fun hmem => lt_irrefl p (hk1 p hmem)
          have hn2 : p ∉ keys r2 := fun hmem => lt_irrefl p (hk2 p hmem)
          rw [(mcpFind_eq_none_iff r1 p).mpr hn1, (mcpFind_eq_none_iff r2 p).mpr hn2]
        · have hb : (p == k1) = false := by simpa using hp
          have h := hfind p
          unfold mcpFind at h ⊢
          simpa only [List.lookup_cons, hb] using h
      rw [hrest]

theorem holdsMaxima_find_eq (m1 m2 : MCPWeights) (paths1 paths2 : List (MCParticle × ℚ))
    (h1 : holdsMaxima m1 paths1) (h2 : holdsMaxima m2 paths2)
    (hmem : ∀ x, x ∈ paths1 ↔ x ∈ paths2) (p : MCParticle) :
    mcpFind m1 p = mcpFind m2 p := by
  cases hfind : mcpFind m1 p with
  | none =>
    cases hfind2 : mcpFind m2 p with
    | none => rfl
    | some w =>
      obtain ⟨⟨x, hx, hx1, _⟩, _⟩ := (h2 p).2 w hfind2
      exact absurd hx1 ((h1 p).1 hfind x ((hmem x).mpr hx))
  | some v =>
    obtain ⟨⟨x, hx, hx1, hx2⟩, hbound⟩ := (h1 p).2 v hfind
    symm
    rw [holdsMaxima_iff m2 paths2 h2 p v]
    exact ⟨⟨x, (hmem x).mp hx, hx1, hx2⟩, fun y hy hy1 => hbound y ((hmem y).mpr hy) hy1⟩

theorem sorted_keys_foldl_rows_nil (linker : Track → Linker) (rels : RelationTable) :
    (keys (rels.foldl (fun mcpweights row =>
        (linker row.2.1 row.2.1).foldl (addLink row.2.2) mcpweights) [])).Pairwise
      (fun a b => a < b) :=
  sorted_foldl_rows linker rels [] (by simp [keys])

theorem foldl_rows_eq_of_mem (linker1 linker2 : Track → Linker) (rels1 rels2 : RelationTable)
    (hmem : ∀ x, x ∈ products linker1 rels1 ↔ x ∈ products linker2 rels2) :
    rels1.foldl (fun mcpweights row =>
        (linker1 row.2.1 row.2.1).foldl (addLink row.2.2) mcpweights) [] =
      rels2.foldl (fun mcpweights row =>
        (linker2 row.2.1 row.2.1).foldl (addLink row.2.2) mcpweights) [] := by
  apply sorted_ext _ _ (sorted_keys_foldl_rows_nil linker1 rels1)
    (sorted_keys_foldl_rows_nil linker2 rels2)
  have h1 := holdsMaxima_foldl_rows linker1 rels1 [] [] holdsMaxima_nil
  have h2 := holdsMaxima_foldl_rows linker2 rels2 [] [] holdsMaxima_nil
  rw [List.nil_append] at h1 h2
  exact holdsMaxima_find_eq _ _ _ _ h1 h2 hmem

theorem find?_congr_mem {α : Type} (l : List α) (p q : α → Bool)
    (h : ∀ x ∈ l, p x = q x) : l.find? p = l.find? q := by
  induction l with
  | nil => rfl
  | cons a rest ih =>
    rw [List.find?_cons, List.find?_cons, h a (List.mem_cons_self a rest),
      ih (fun x hx => h x (List.mem_cons_of_mem a hx))]

theorem linkerOf_eq_linksAt (cfg : Properties) (store : EventStore) (track : Track)
    (location : Location) (h : firstLocation cfg store track = some location) :
    linkerOf cfg store track = linksAt store location := by
  unfold linkerOf linksAt
  rw [h]

/-- C14: take two event stores with the same usable reference containers whose link
tables enumerate, for every reference track, the same entries in possibly different
orders, and two sequences of relations that are permutations of each other (with
targets in configured containers). Then the loop of lines 68-89 ends, in both cases,
with the same map `mcpweights`, hence with the same emitted links for the input track. -/
theorem stage2_order_independent (cfg : Properties) (store1 store2 : EventStore)
    (huse1 : allUsable cfg store1) (huse2 : allUsable cfg store2)
    (htracks : ∀ location ∈ cfg.m_linkedtracks,
      tracksAt store2 location = tracksAt store1 location)
    (hlinks : ∀ location ∈ cfg.m_linkedtracks, ∀ r ∈ tracksAt store1 location,
      (linksAt store1 location r).Perm (linksAt store2 location r))
    (rels1 rels2 : RelationTable) (hperm : rels1.Perm rels2)
    (hrels : ∀ row ∈ rels1, ∃ location ∈ cfg.m_linkedtracks,
      row.2.1 ∈ tracksAt store1 location)
    (u : Track) :
    ∃ mcpweights,
      propagate cfg (found cfg store1).linkedtracks (found cfg store1).linkers rels1 [] =
        .ok mcpweights ∧
      propagate cfg (found cfg store2).linkedtracks (found cfg store2).linkers rels2 [] =
        .ok mcpweights ∧
      ∀ link, link ∈ emit u mcpweights ↔
        link.1 = u ∧ mcpFind mcpweights link.2.1 = some link.2.2 := by
  have hfirst : ∀ r, firstLocation cfg store2 r = firstLocation cfg store1 r := by
    intro r
    unfold firstLocation
    apply find?_congr_mem
    intro location hloc
    rw [htracks location hloc]
  have hrels2 : ∀ row ∈ rels2, ∃ location ∈ cfg.m_linkedtracks,
      row.2.1 ∈ tracksAt store2 location := by
    intro row hrow
    obtain ⟨location, hloc, hr⟩ := hrels row (hperm.mem_iff.mpr hrow)
    exact ⟨location, hloc, by rw [htracks location hloc]; exact hr⟩
  have hentries : ∀ row ∈ rels1, ∀ entry,
      entry ∈ linkerOf cfg store1 row.2.1 row.2.1 ↔
        entry ∈ linkerOf cfg store2 row.2.1 row.2.1 := by
    intro row hrow entry
    obtain ⟨location, hloc⟩ := firstLocation_isSome cfg store1 row.2.1 (hrels row hrow)
    have hmem := firstLocation_mem cfg store1 row.2.1 location hloc
    rw [linkerOf_eq_linksAt cfg store1 row.2.1 location hloc,
      linkerOf_eq_linksAt cfg store2 row.2.1 location ((hfirst row.2.1).trans hloc)]
    exact (hlinks location hmem.1 row.2.1 hmem.2).mem_iff
  refine ⟨weightsOf cfg store1 rels1, ?_, ?_, ?_⟩
  · rw [propagate_found cfg store1 huse1 rels1 [] hrels]
    rfl
  · rw [propagate_found cfg store2 huse2 rels2 [] hrels2]
    apply congrArg Except.ok
    unfold weightsOf
    apply foldl_rows_eq_of_mem
    intro x
    rw [mem_products, mem_products]
    constructor
    · rintro ⟨row, hrow, entry, hentry, h1, h2⟩
      have hrow1 := hperm.mem_iff.mpr hrow
      exact ⟨row, hrow1, entry, (hentries row hrow1 entry).mpr hentry, h1, h2⟩
    · rintro ⟨row, hrow, entry, hentry, h1, h2⟩
      exact ⟨row, hperm.mem_iff.mp hrow, entry, (hentries row hrow entry).mp hentry, h1, h2⟩
  · intro link
    have hnodup := nodup_keys_weightsOf cfg store1 rels1
    rw [← mem_iff_mcpFind _ hnodup]
    unfold emit
    constructor
    · intro hlink
      obtain ⟨e, he, heq⟩ := List.mem_map.mp hlink
      subst heq
      exact ⟨rfl, he⟩
    · rintro ⟨h1, h2⟩
      exact List.mem_map.mpr ⟨(link.2.1, link.2.2), h2, by rw [← h1]⟩

/-- Witness of C14: the relations of track 1 in two orders, and the entries of track
14 in two orders, give the same map. -/
theorem stage2_order_independent_witness :
    ∃ mcpweights,
      propagate singleCfg (found singleCfg maxStore).linkedtracks
        (found singleCfg maxStore).linkers [(1, 11, 1), (1, 14, 1), (1, 15, 1)] [] =
        .ok mcpweights ∧
      propagate singleCfg (found singleCfg maxStoreSwapped).linkedtracks
        (found singleCfg maxStoreSwapped).linkers [(1, 15, 1), (1, 11, 1), (1, 14, 1)] [] =
        .ok mcpweights ∧
      mcpweights = [(100, 9/10), (200, 1/5)] := by
  obtain ⟨mcpweights, h1, h2, _⟩ :=
    stage2_order_independent singleCfg maxStore maxStoreSwapped (by decide) (by decide)
      (by decide) (by with_unfolding_all decide)
      [(1, 11, 1), (1, 14, 1), (1, 15, 1)] [(1, 15, 1), (1, 11, 1), (1, 14, 1)]
      (by decide) (by decide) 1
  have heval : propagate singleCfg (found singleCfg maxStore).linkedtracks
      (found singleCfg maxStore).linkers [(1, 11, 1), (1, 14, 1), (1, 15, 1)] [] =
      .ok [(100, 9/10), (200, 1/5)] := by
    with_unfolding_all decide
  exact ⟨mcpweights, h1, h2, Except.ok.inj (h1.symm.trans heval)⟩

/-- C15: when every configured location is usable, stage 1 completes and, for every
relation it inserted, the scan of lines 70-76 stops at a configured location (it does
not reach `m_linkedtracks.end()`), the map `linkers` holds a linker for that location,
and line 77 yields it; consequently stage 2 runs to completion. -/
theorem provenance_never_fails (cfg : Properties) (store : EventStore)
    (inputtracks : List Track) (huse : allUsable cfg store) :
    ∃ table,
      buildRelations cfg store (found cfg store).linkedtracks inputtracks [] = .ok table ∧
      (∀ row ∈ table, ∃ location linker,
        findLocation (found cfg store).linkedtracks row.2.1 cfg.m_linkedtracks =
          .ok (some location) ∧
        location ∈ cfg.m_linkedtracks ∧
        at_ (found cfg store).linkers location = some linker ∧
        resolveLinker cfg (found cfg store).linkedtracks (found cfg store).linkers row.2.1 =
          .ok linker) ∧
      ∃ outputlinks,
        linkTracks cfg (found cfg store).linkedtracks (found cfg store).linkers table
          inputtracks [] = .ok outputlinks := by
  refine ⟨inputtracks.flatMap (rowsOf cfg store), ?_, ?_, ?_⟩
  · rw [buildRelations_found cfg store huse]
    rfl
  · intro row hrow
    obtain ⟨v, _, hv⟩ := List.mem_flatMap.mp hrow
    have hsome := ((mem_rowsOf cfg store v row).mp hv).2.1
    obtain ⟨location, hfirst⟩ := firstLocation_isSome cfg store row.2.1 hsome
    have hmem := firstLocation_mem cfg store row.2.1 location hfirst
    obtain ⟨linker, hlinker⟩ := Option.isSome_iff_exists.mp (huse location hmem.1).1
    have hres := resolveLinker_found cfg store huse row.2.1 hsome
    have hlinkerOf : linkerOf cfg store row.2.1 = linker := by
      simp [linkerOf, hfirst, hlinker]
    rw [hlinkerOf] at hres
    refine ⟨location, linker, ?_, hmem.1, ?_, hres⟩
    · rw [findLocation_found cfg store huse row.2.1 cfg.m_linkedtracks (fun _ h => h)]
      exact congrArg Except.ok hfirst
    · rw [found_linkers_usable cfg store huse location hmem.1]
      exact hlinker
  · exact ⟨_, linkTracks_found cfg store huse inputtracks inputtracks []⟩

/-- Witness of C15: the scenario of section 8 of the specification. -/
theorem provenance_never_fails_witness :
    ∃ table,
      buildRelations scenarioCfg scenarioStore (found scenarioCfg scenarioStore).linkedtracks
        [1] [] = .ok table ∧
      (∀ row ∈ table, ∃ location linker,
        findLocation (found scenarioCfg scenarioStore).linkedtracks row.2.1
          scenarioCfg.m_linkedtracks = .ok (some location) ∧
        location ∈ scenarioCfg.m_linkedtracks ∧
        at_ (found scenarioCfg scenarioStore).linkers location = some linker ∧
        resolveLinker scenarioCfg (found scenarioCfg scenarioStore).linkedtracks
          (found scenarioCfg scenarioStore).linkers row.2.1 = .ok linker) ∧
      ∃ outputlinks,
        linkTracks scenarioCfg (found scenarioCfg scenarioStore).linkedtracks
          (found scenarioCfg scenarioStore).linkers table [1] [] = .ok outputlinks :=
  provenance_never_fails scenarioCfg scenarioStore [1] (by decide)

theorem toUnsigned_matchfrac_le_one (store : EventStore) (u r : Track)
    (hids : 0 < nLHCbIDs store u) :
    toUnsigned store (matchfrac store u r) ≤ 1 := by
  rw [matchfrac_of_pos store u r hids]
  unfold toUnsigned
  rw [Int.toNat_le]
  have hfloor : Rat.floor (floatScore store u r) = ⌊floatScore store u r⌋ := rfl
  rw [hfloor]
  have h := Int.floor_le_floor (floatScore_le_one store u r hids)
  simpa using h

/-- C17: when the input tracks are present, every configured location is usable,
every input track has at least one identifier and every truth-link weight lies in
[0,1], `execute` completes and every emitted link `(u, p, w)` has `0 ≤ w ≤ 1`;
moreover the table relates `u` to a reference track whose resolved link table
enumerates `p` with a weight at least `w`. -/
theorem output_weights_are_confidences (cfg : Properties) (store : EventStore)
    (inputtracks : List Track)
    (hin : store.tracks cfg.m_inputtracks = some inputtracks)
    (huse : allUsable cfg store)
    (hids : ∀ u ∈ inputtracks, 0 < nLHCbIDs store u)
    (hweights : weightsInUnit cfg store) :
    ∃ table res,
      buildRelations cfg store (found cfg store).linkedtracks inputtracks [] = .ok table ∧
      execute cfg store = .ok res ∧
      ∀ link ∈ res.outputlinks,
        0 ≤ link.2.2 ∧ link.2.2 ≤ 1 ∧
        ∃ r w, (link.1, r, w) ∈ table ∧ ∃ linker,
          resolveLinker cfg (found cfg store).linkedtracks (found cfg store).linkers r =
            .ok linker ∧
          ∃ entry ∈ linker r, entry.1 = link.2.1 ∧ link.2.2 ≤ entry.2 := by
  obtain ⟨log, hexec⟩ := execute_usable_links cfg store inputtracks hin huse
  refine ⟨inputtracks.flatMap (rowsOf cfg store), _, ?_, hexec, ?_⟩
  · rw [buildRelations_found cfg store huse]
    rfl
  · intro link hlink
    obtain ⟨hu, hmem⟩ := (mem_expectedLinks cfg store inputtracks link).mp hlink
    have hnodup := nodup_keys_weightsOf cfg store
      (relations (inputtracks.flatMap (rowsOf cfg store)) link.1)
    have hfind := (mem_iff_mcpFind _ hnodup link.2.1 link.2.2).mp hmem
    obtain ⟨⟨x, hx, hx1, hx2⟩, _⟩ :=
      (holdsMaxima_weightsOf cfg store _ link.2.1).2 link.2.2 hfind
    obtain ⟨row, hrow, entry, hentry, h1, h2⟩ := (mem_products _ _ x).mp hx
    have hrel := (mem_relations_flatMap cfg store inputtracks link.1 row).mp hrow
    have hrows := (mem_rowsOf cfg store link.1 row).mp hrel.2
    obtain ⟨location, hfirst⟩ := firstLocation_isSome cfg store row.2.1 hrows.2.1
    have hloc := firstLocation_mem cfg store row.2.1 location hfirst
    have hentry2 := hentry
    rw [linkerOf_eq_linksAt cfg store row.2.1 location hfirst] at hentry2
    obtain ⟨hlo, hhi⟩ := hweights location hloc.1 row.2.1 hloc.2 entry hentry2
    have hw : row.2.2 ≤ 1 := by
      rw [hrows.2.2.2]
      exact toUnsigned_matchfrac_le_one store link.1 row.2.1 (hids link.1 hu)
    have hw0 : (0 : ℚ) ≤ (row.2.2 : ℚ) := Nat.cast_nonneg _
    have hw1 : (row.2.2 : ℚ) ≤ 1 := by exact_mod_cast hw
    have hval : link.2.2 = entry.2 * (row.2.2 : ℚ) := (h2.trans hx2).symm
    have hle : link.2.2 ≤ entry.2 := by
      rw [hval]
      exact mul_le_of_le_one_right hlo hw1
    refine ⟨?_, le_trans hle hhi, row.2.1, row.2.2, ?_, linkerOf cfg store row.2.1,
      resolveLinker_found cfg store huse row.2.1 hrows.2.1, entry, hentry,
      h1.trans hx1, hle⟩
    · rw [hval]
      exact mul_nonneg hlo hw0
    · have hrowmem : row ∈ inputtracks.flatMap (rowsOf cfg store) :=
        (List.mem_filter.mp hrow).1
      rw [← hrows.1]
      exact hrowmem

/-- Witness of C17: three perfect matches with link weights 0.3, 0.9 and 0.5. -/
theorem output_weights_are_confidences_witness :
    ∃ table res,
      buildRelations singleCfg maxStore (found singleCfg maxStore).linkedtracks [1] [] =
        .ok table ∧
      execute singleCfg maxStore = .ok res ∧
      ∀ link ∈ res.outputlinks,
        0 ≤ link.2.2 ∧ link.2.2 ≤ 1 ∧
        ∃ r w, (link.1, r, w) ∈ table ∧ ∃ linker,
          resolveLinker singleCfg (found singleCfg maxStore).linkedtracks
            (found singleCfg maxStore).linkers r = .ok linker ∧
          ∃ entry ∈ linker r, entry.1 = link.2.1 ∧ link.2.2 ≤ entry.2 :=
  output_weights_are_confidences singleCfg maxStore [1] rfl (by decide) (by decide)
    (by with_unfolding_all decide)

/-! ## Configurations with the same locations -/

theorem linkerOf_congr (cfg1 cfg2 : Properties) (store : EventStore)
    (hfirst : ∀ r, firstLocation cfg1 store r = firstLocation cfg2 store r) (r : Track) :
    linkerOf cfg1 store r = linkerOf cfg2 store r := by
  unfold linkerOf
  rw [hfirst r]

theorem mem_rowsOf_congr (cfg1 cfg2 : Properties) (store : EventStore)
    (hthr : cfg1.m_matchfrac = cfg2.m_matchfrac)
    (hlocs : ∀ location, location ∈ cfg1.m_linkedtracks ↔ location ∈ cfg2.m_linkedtracks)
    (u : Track) (row : Track × Track × ℕ) :
    row ∈ rowsOf cfg1 store u ↔ row ∈ rowsOf cfg2 store u := by
  have hthr2 : threshold cfg1 = threshold cfg2 := by
    unfold threshold
    rw [hthr]
  rw [mem_rowsOf, mem_rowsOf, hthr2]
  constructor
  · rintro ⟨h1, ⟨location, hloc, hr⟩, h3⟩
    exact ⟨h1, ⟨location, (hlocs location).mp hloc, hr⟩, h3⟩
  · rintro ⟨h1, ⟨location, hloc, hr⟩, h3⟩
    exact ⟨h1, ⟨location, (hlocs location).mpr hloc, hr⟩, h3⟩

theorem expectedLinks_congr (cfg1 cfg2 : Properties) (store : EventStore)
    (hthr : cfg1.m_matchfrac = cfg2.m_matchfrac)
    (hlocs : ∀ location, location ∈ cfg1.m_linkedtracks ↔ location ∈ cfg2.m_linkedtracks)
    (hfirst : ∀ r, firstLocation cfg1 store r = firstLocation cfg2 store r)
    (inputtracks : List Track) :
    expectedLinks cfg1 store inputtracks = expectedLinks cfg2 store inputtracks := by
  unfold expectedLinks
  apply List.flatMap_congr
  intro u _
  congr 1
  unfold weightsOf
  apply foldl_rows_eq_of_mem
  intro x
  rw [mem_products, mem_products]
  constructor
  · rintro ⟨row, hrow, entry, hentry, h1, h2⟩
    have hrel := (mem_relations_flatMap cfg1 store inputtracks u row).mp hrow
    refine ⟨row, (mem_relations_flatMap cfg2 store inputtracks u row).mpr
      ⟨hrel.1, (mem_rowsOf_congr cfg1 cfg2 store hthr hlocs u row).mp hrel.2⟩, entry, ?_, h1, h2⟩
    rw [← linkerOf_congr cfg1 cfg2 store hfirst]
    exact hentry
  · rintro ⟨row, hrow, entry, hentry, h1, h2⟩
    have hrel := (mem_relations_flatMap cfg2 store inputtracks u row).mp hrow
    refine ⟨row, (mem_relations_flatMap cfg1 store inputtracks u row).mpr
      ⟨hrel.1, (mem_rowsOf_congr cfg1 cfg2 store hthr hlocs u row).mpr hrel.2⟩, entry, ?_, h1, h2⟩
    rw [linkerOf_congr cfg1 cfg2 store hfirst]
    exact hentry

theorem find?_repeated {α : Type} (p : α → Bool) (pre mid post : List α) (a : α) :
    (pre ++ a :: (mid ++ a :: post)).find? p = (pre ++ a :: (mid ++ post)).find? p := by
  simp only [List.find?_append, List.find?_cons]
  cases h : p a <;> simp

/-- C16: with every configured location usable, listing a location a second time
(anywhere after its first occurrence) in `LinkedTracks` leaves the output links and
their weights unchanged: both configurations complete with `SUCCESS` and write the
same links. -/
theorem repeated_location_harmless (input : Location) (threshold : ℚ)
    (pre mid post : List Location) (location : Location) (store : EventStore)
    (inputtracks : List Track)
    (hin : store.tracks input = some inputtracks)
    (huse : allUsable ⟨input, threshold, pre ++ location :: (mid ++ post)⟩ store) :
    ∃ outputlinks log1 log2,
      execute ⟨input, threshold, pre ++ location :: (mid ++ post)⟩ store =
        .ok ⟨.SUCCESS, outputlinks, log1⟩ ∧
      execute ⟨input, threshold, pre ++ location :: (mid ++ location :: post)⟩ store =
        .ok ⟨.SUCCESS, outputlinks, log2⟩ := by
  have hlocs : ∀ l, l ∈ pre ++ location :: (mid ++ post) ↔
      l ∈ pre ++ location :: (mid ++ location :: post) := by
    intro l
    simp only [List.mem_append, List.mem_cons]
    tauto
  have huse2 : allUsable ⟨input, threshold, pre ++ location :: (mid ++ location :: post)⟩
      store := by
    intro l hl
    exact huse l ((hlocs l).mpr hl)
  obtain ⟨log1, h1⟩ := execute_usable_links
    ⟨input, threshold, pre ++ location :: (mid ++ post)⟩ store inputtracks hin huse
  obtain ⟨log2, h2⟩ := execute_usable_links
    ⟨input, threshold, pre ++ location :: (mid ++ location :: post)⟩ store inputtracks hin huse2
  refine ⟨_, log1, log2, h1, ?_⟩
  rw [h2]
  have hexp := expectedLinks_congr
    ⟨input, threshold, pre ++ location :: (mid ++ post)⟩
    ⟨input, threshold, pre ++ location :: (mid ++ location :: post)⟩ store rfl hlocs
    (fun r => (find?_repeated _ pre mid post location).symm) inputtracks
  rw [hexp]

/-- Witness of C16: the location `A` configured once and twice; in the second case
every matched pair is in the relation table twice. -/
theorem repeated_location_harmless_witness :
    (∃ outputlinks log1 log2,
      execute ⟨"In", 7/10, [] ++ "A" :: ([] ++ [])⟩ maxStore =
        .ok ⟨.SUCCESS, outputlinks, log1⟩ ∧
      execute ⟨"In", 7/10, [] ++ "A" :: ([] ++ "A" :: [])⟩ maxStore =
        .ok ⟨.SUCCESS, outputlinks, log2⟩) ∧
    buildRelations ⟨"In", 7/10, ["A", "A"]⟩ maxStore
      (found ⟨"In", 7/10, ["A", "A"]⟩ maxStore).linkedtracks [1] [] =
      .ok [(1, 11, 1), (1, 14, 1), (1, 15, 1), (1, 11, 1), (1, 14, 1), (1, 15, 1)] ∧
    execute ⟨"In", 7/10, ["A", "A"]⟩ maxStore =
      .ok ⟨.SUCCESS, [(1, 100, 9/10), (1, 200, 1/5)],
        [.getIfExists "In", .newLinker "A", .getIfExists "A", .newLinker "A",
          .getIfExists "A", .newLinkerWithKey "In"]⟩ :=
  ⟨repeated_location_harmless "In" (7/10) [] [] [] "A" maxStore [1] rfl (by decide),
    by with_unfolding_all decide, by with_unfolding_all decide⟩

/-! ## The tagging variant -/

theorem foldl_matchLinkedTrackTagged (cfg : Properties) (store : EventStore)
    (location : Location) (inputtrack : Track) (these : List Track) (table : TaggedTable) :
    these.foldl (matchLinkedTrackTagged cfg store location inputtrack) table =
      table ++ (matchedRows cfg store inputtrack these).map (fun row => (row, location)) := by
  induction these generalizing table with
  | nil => simp [matchedRows]
  | cons t rest ih =>
    rw [List.foldl_cons, ih]
    unfold matchLinkedTrackTagged matchedRows
    by_cases h : floatLt (matchfrac store inputtrack t) (threshold cfg) = true
    · simp [List.filterMap_cons, h]
    · simp [List.filterMap_cons, h]

theorem matchLocationsTagged_found (cfg : Properties) (store : EventStore)
    (huse : allUsable cfg store) (inputtrack : Track) (locations : List Location)
    (hsub : ∀ location ∈ locations, location ∈ cfg.m_linkedtracks) (table : TaggedTable) :
    matchLocationsTagged cfg store (found cfg store).linkedtracks inputtrack locations table =
      .ok (table ++ locations.flatMap (fun location =>
        (matchedRows cfg store inputtrack (tracksAt store location)).map
          (fun row => (row, location)))) := by
  induction locations generalizing table with
  | nil => simp [matchLocationsTagged]
  | cons l rest ih =>
    have hl := hsub l (List.mem_cons_self l rest)
    obtain ⟨these, hthese⟩ := Option.isSome_iff_exists.mp (huse l hl).2
    unfold matchLocationsTagged
    rw [found_linkedtracks_usable cfg store huse l hl]
    simp only [hthese]
    rw [ih (fun location h => hsub location (List.mem_cons_of_mem l h)),
      foldl_matchLinkedTrackTagged]
    simp [List.flatMap_cons, tracksAt, hthese, List.append_assoc]

theorem buildRelationsTagged_found (cfg : Properties) (store : EventStore)
    (huse : allUsable cfg store) (inputtracks : List Track) (table : TaggedTable) :
    buildRelationsTagged cfg store (found cfg store).linkedtracks inputtracks table =
      .ok (table ++ inputtracks.flatMap (rowsOfTagged cfg store)) := by
  induction inputtracks generalizing table with
  | nil => simp [buildRelationsTagged]
  | cons u rest ih =>
    unfold buildRelationsTagged
    rw [matchLocationsTagged_found cfg store huse u cfg.m_linkedtracks (fun _ h => h)]
    simp only [ih, List.flatMap_cons, List.append_assoc, rowsOfTagged]

theorem map_fst_rowsOfTagged (cfg : Properties) (store : EventStore) (u : Track) :
    (rowsOfTagged cfg store u).map Prod.fst = rowsOf cfg store u := by
  unfold rowsOfTagged rowsOf
  rw [List.map_flatMap]
  apply List.flatMap_congr
  intro location _
  rw [List.map_map]
  exact List.map_id _

theorem map_fst_flatMap_rowsOfTagged (cfg : Properties) (store : EventStore)
    (all : List Track) :
    (all.flatMap (rowsOfTagged cfg store)).map Prod.fst = all.flatMap (rowsOf cfg store) := by
  rw [List.map_flatMap]
  apply List.flatMap_congr
  intro u _
  exact map_fst_rowsOfTagged cfg store u

theorem map_fst_relationsTagged (table : TaggedTable) (u : Track) :
    (relationsTagged table u).map Prod.fst = relations (table.map Prod.fst) u := by
  unfold relationsTagged relations
  rw [List.filter_map]
  rfl

theorem mem_rowsOfTagged (cfg : Properties) (store : EventStore) (u : Track)
    (tagged : (Track × Track × ℕ) × Location) (h : tagged ∈ rowsOfTagged cfg store u) :
    tagged.2 ∈ cfg.m_linkedtracks ∧ tagged.1.2.1 ∈ tracksAt store tagged.2 := by
  unfold rowsOfTagged at h
  obtain ⟨location, hloc, hmem⟩ := List.mem_flatMap.mp h
  obtain ⟨row, hrow, heq⟩ := List.mem_map.mp hmem
  subst heq
  exact ⟨hloc, ((mem_matchedRows cfg store u _ row).mp hrow).2.1⟩

theorem linkerOf_of_unique (cfg : Properties) (store : EventStore)
    (hunique : uniqueProvenance cfg store) (r : Track) (location : Location)
    (hloc : location ∈ cfg.m_linkedtracks) (hr : r ∈ tracksAt store location) :
    linkerOf cfg store r = linksAt store location := by
  obtain ⟨first, hfirst⟩ := firstLocation_isSome cfg store r ⟨location, hloc, hr⟩
  have hmem := firstLocation_mem cfg store r first hfirst
  rw [linkerOf_eq_linksAt cfg store r first hfirst,
    hunique first hmem.1 location hloc r hmem.2 hr]

theorem propagateTagged_found (cfg : Properties) (store : EventStore)
    (huse : allUsable cfg store) (tagged : TaggedTable) (mcpweights : MCPWeights)
    (h : ∀ row ∈ tagged, row.2 ∈ cfg.m_linkedtracks ∧
      linkerOf cfg store row.1.2.1 = linksAt store row.2) :
    propagateTagged (found cfg store).linkers tagged mcpweights =
      .ok ((tagged.map Prod.fst).foldl (fun mcpweights row =>
        (linkerOf cfg store row.2.1 row.2.1).foldl (addLink row.2.2) mcpweights) mcpweights) := by
  induction tagged generalizing mcpweights with
  | nil => simp [propagateTagged]
  | cons row rest ih =>
    obtain ⟨hloc, hlinker⟩ := h row (List.mem_cons_self row rest)
    obtain ⟨linker, hsome⟩ := Option.isSome_iff_exists.mp (huse row.2 hloc).1
    have hlinks : linksAt store row.2 = linker := by
      simp [linksAt, hsome]
    unfold propagateTagged
    rw [found_linkers_usable cfg store huse row.2 hloc]
    simp only [hsome]
    rw [ih _ (fun r hr => h r (List.mem_cons_of_mem row hr))]
    simp only [List.map_cons, List.foldl_cons, hlinker, hlinks]

theorem linkTracksTagged_found (cfg : Properties) (store : EventStore)
    (huse : allUsable cfg store) (hunique : uniqueProvenance cfg store)
    (all inputtracks : List Track) (outputlinks : List Link) :
    linkTracksTagged (found cfg store).linkers (all.flatMap (rowsOfTagged cfg store))
        inputtracks outputlinks =
      .ok (outputlinks ++ inputtracks.flatMap (fun inputtrack =>
        emit inputtrack
          (weightsOf cfg store (relations (all.flatMap (rowsOf cfg store)) inputtrack)))) := by
  induction inputtracks generalizing outputlinks with
  | nil => simp [linkTracksTagged]
  | cons u rest ih =>
    unfold linkTracksTagged
    rw [propagateTagged_found cfg store huse]
    · simp only [ih, List.flatMap_cons, List.append_assoc, weightsOf,
        map_fst_relationsTagged, map_fst_flatMap_rowsOfTagged]
    · intro row hrow
      unfold relationsTagged at hrow
      obtain ⟨v, _, hv⟩ := List.mem_flatMap.mp (List.mem_filter.mp hrow).1
      have hmem := mem_rowsOfTagged cfg store v row hv
      exact ⟨hmem.1, linkerOf_of_unique cfg store hunique row.1.2.1 row.2 hmem.1 hmem.2⟩

theorem executeTagged_noneUsable (cfg : Properties) (store : EventStore)
    (inputtracks : List Track)
    (hin : store.tracks cfg.m_inputtracks = some inputtracks)
    (hnone : noneUsable cfg store) :
    executeTagged cfg store =
      .ok ⟨.SUCCESS, [], (found cfg store).log ++ [.warning .noLinkedTracks]⟩ := by
  have h := (found_empty_iff cfg store).mpr hnone
  unfold found at h
  unfold executeTagged
  simp only [hin]
  rw [if_pos h]
  rfl

theorem executeTagged_usable (cfg : Properties) (store : EventStore)
    (inputtracks : List Track)
    (hin : store.tracks cfg.m_inputtracks = some inputtracks)
    (huse : allUsable cfg store) (hunique : uniqueProvenance cfg store)
    (hne : cfg.m_linkedtracks ≠ []) :
    executeTagged cfg store =
      .ok ⟨.SUCCESS, expectedLinks cfg store inputtracks,
        (found cfg store).log ++ [.newLinkerWithKey cfg.m_inputtracks]⟩ := by
  have hnot : ¬ (((found cfg store).linkedtracks.isEmpty ||
      (found cfg store).linkers.isEmpty) = true) := by
    rw [found_empty_iff]
    intro hnone
    obtain ⟨l, rest, hl⟩ := List.exists_cons_of_ne_nil hne
    have hmem : l ∈ cfg.m_linkedtracks := by rw [hl]; exact List.mem_cons_self l rest
    exact hnone l hmem (huse l hmem)
  have hbuild := buildRelationsTagged_found cfg store huse inputtracks []
  have hlink := linkTracksTagged_found cfg store huse hunique inputtracks inputtracks []
  unfold found at hnot hbuild hlink
  unfold executeTagged
  simp only [hin]
  rw [if_neg hnot, hbuild]
  simp only [List.nil_append]
  rw [hlink]
  rfl

/-- C13: when the input tracks are present, every configured location is usable and
every reference track lies in the container of one configured location only, the
variant that tags each relation with its originating location in stage 1 and uses the
link table of the tag in stage 2 completes with the same result as `execute`, which
resolves the location by the scan of lines 70-76: the same links with the same
weights (and the same status and events). -/
theorem tagging_refines_scanning (cfg : Properties) (store : EventStore)
    (inputtracks : List Track)
    (hin : store.tracks cfg.m_inputtracks = some inputtracks)
    (huse : allUsable cfg store) (hunique : uniqueProvenance cfg store) :
    ∃ res, execute cfg store = .ok res ∧ executeTagged cfg store = .ok res := by
  by_cases hnil : cfg.m_linkedtracks = []
  · have hnone : noneUsable cfg store := by
      intro location hmem
      rw [hnil] at hmem
      cases hmem
    exact ⟨_, execute_noneUsable cfg store inputtracks hin hnone,
      executeTagged_noneUsable cfg store inputtracks hin hnone⟩
  · exact ⟨_, execute_usable cfg store inputtracks hin huse hnil,
      executeTagged_usable cfg store inputtracks hin huse hunique hnil⟩

/-- Witness of C13: the scenario of section 8 of the specification, in which track 11
lies only in the container of `A` and track 12 only in that of `B`; when track 11 lies
in both containers (`dualStore`) the two engines differ. -/
theorem tagging_refines_scanning_witness :
    (∃ res, execute scenarioCfg scenarioStore = .ok res ∧
      executeTagged scenarioCfg scenarioStore = .ok res) ∧
    ¬ uniqueProvenance scenarioCfg dualStore ∧
    executeTagged scenarioCfg dualStore ≠ execute scenarioCfg dualStore :=
  ⟨tagging_refines_scanning scenarioCfg scenarioStore [1] rfl (by decide) (by decide),
    by decide, by with_unfolding_all decide⟩

end ProxyTrackAssociator
